import Mathlib

/-!
Verification model of the AI-Trip-Planner backend (src/app.py, src/security.py,
src/config.py): JSON-like Python values, the two tool executors, the
tool-call conversation loop, the retry controllers, the output extractor and
input sanitization, each translated from the source.
-/

/-- JSON-like Python value, as produced by response.json() in app.py.
Numbers are modelled as rationals. -/
inductive JVal where
  | null : JVal
  | bool : Bool → JVal
  | num : ℚ → JVal
  | str : String → JVal
  | arr : List JVal → JVal
  | obj : List (String × JVal) → JVal

/-- Structural induction principle for the nested inductive JVal. -/
theorem JVal.inductionOn (P : JVal → Prop)
    (hnull : P .null)
    (hbool : ∀ b, P (.bool b))
    (hnum : ∀ q, P (.num q))
    (hstr : ∀ s, P (.str s))
    (harr : ∀ xs, (∀ x ∈ xs, P x) → P (.arr xs))
    (hobj : ∀ fs, (∀ kv ∈ fs, P kv.2) → P (.obj fs)) :
    ∀ v, P v
  | .null => hnull
  | .bool b => hbool b
  | .num q => hnum q
  | .str s => hstr s
  | .arr xs => harr xs (fun x hx' =>
      JVal.inductionOn P hnull hbool hnum hstr harr hobj x)
  | .obj fs => hobj fs (fun kv hkv' =>
      JVal.inductionOn P hnull hbool hnum hstr harr hobj kv.2)
termination_by v => sizeOf v
decreasing_by
  · have h1 := List.sizeOf_lt_of_mem hx'
    simp only [JVal.arr.sizeOf_spec]
    omega
  · have h1 := List.sizeOf_lt_of_mem hkv'
    have h2 : sizeOf kv.2 < sizeOf kv := by
      obtain ⟨k, v⟩ := kv
      simp only [Prod.mk.sizeOf_spec]
      omega
    simp only [JVal.obj.sizeOf_spec]
    omega

mutual

/-- Boolean equality on JVal (needed because deriving DecidableEq is not
available for this nested inductive). -/
def JVal.beq : JVal → JVal → Bool
  | .null, .null => true
  | .bool a, .bool b => a == b
  | .num a, .num b => a == b
  | .str a, .str b => a == b
  | .arr xs, .arr ys => JVal.beqArr xs ys
  | .obj fs, .obj gs => JVal.beqObj fs gs
  | _, _ => false

/-- Boolean equality on lists of JVal. -/
def JVal.beqArr : List JVal → List JVal → Bool
  | [], [] => true
  | x :: xs, y :: ys => JVal.beq x y && JVal.beqArr xs ys
  | _, _ => false

/-- Boolean equality on JSON object field lists. -/
def JVal.beqObj : List (String × JVal) → List (String × JVal) → Bool
  | [], [] => true
  | (k, v) :: fs, (l, w) :: gs => k == l && JVal.beq v w && JVal.beqObj fs gs
  | _, _ => false

end

/-- Helper for the correctness of JVal.beq on array elements. -/
theorem JVal.beqArr_iff (xs ys : List JVal)
    (ih : ∀ x ∈ xs, ∀ b, (JVal.beq x b = true) ↔ x = b) :
    (JVal.beqArr xs ys = true) ↔ xs = ys := by
  induction xs generalizing ys with
  | nil => cases ys <;> simp [JVal.beqArr]
  | cons x xs ihx =>
      cases ys with
      | nil => simp [JVal.beqArr]
      | cons y ys =>
          simp only [JVal.beqArr, Bool.and_eq_true, List.cons.injEq]
          rw [ih x (by simp), ihx ys (fun a ha b => ih a (List.mem_cons_of_mem x ha) b)]

/-- Helper for the correctness of JVal.beq on object fields. -/
theorem JVal.beqObj_iff (fs gs : List (String × JVal))
    (ih : ∀ kv ∈ fs, ∀ b, (JVal.beq kv.2 b = true) ↔ kv.2 = b) :
    (JVal.beqObj fs gs = true) ↔ fs = gs := by
  induction fs generalizing gs with
  | nil => cases gs <;> simp [JVal.beqObj]
  | cons kv fs ihf =>
      cases gs with
      | nil => obtain ⟨k, v⟩ := kv; simp [JVal.beqObj]
      | cons lw gs =>
          obtain ⟨k, v⟩ := kv
          obtain ⟨l, w⟩ := lw
          simp only [JVal.beqObj, Bool.and_eq_true, List.cons.injEq, beq_iff_eq,
            Prod.mk.injEq]
          rw [ih (k, v) (by simp), ihf gs (fun a ha b => ih a (List.mem_cons_of_mem _ ha) b)]

/-- JVal.beq decides propositional equality. -/
theorem JVal.beq_iff : ∀ a b : JVal, (JVal.beq a b = true) ↔ a = b := by
  intro a
  induction a using JVal.inductionOn with
  | hnull => intro b; cases b <;> simp [JVal.beq]
  | hbool x => intro b; cases b <;> simp [JVal.beq]
  | hnum x => intro b; cases b <;> simp [JVal.beq]
  | hstr x => intro b; cases b <;> simp [JVal.beq]
  | harr xs ih =>
      intro b
      cases b <;> simp only [JVal.beq, JVal.arr.injEq] <;> try simp
      exact JVal.beqArr_iff xs _ ih
  | hobj fs ih =>
      intro b
      cases b <;> simp only [JVal.beq, JVal.obj.injEq] <;> try simp
      exact JVal.beqObj_iff fs _ ih

instance : DecidableEq JVal :=
  fun a b => decidable_of_iff _ (JVal.beq_iff a b)

/-- Python exception classes raised by the embedded code.  requestException
covers requests.exceptions.RequestException and its non-HTTPError subclasses
(connection errors, timeouts, undecodable response bodies); httpError is
requests.exceptions.HTTPError, itself a RequestException subclass carrying a
status code. -/
inductive PyErr where
  | requestException : PyErr
  | httpError : Nat → PyErr
  | valueError : PyErr
  | typeError : PyErr
  | attributeError : PyErr
  | indexError : PyErr
deriving DecidableEq

instance {ε α : Type} [DecidableEq ε] [DecidableEq α] : DecidableEq (Except ε α) := by
  intro a b
  cases a <;> cases b
  case error.error x y => exact decidable_of_iff (x = y) (by simp)
  case error.ok x y => exact isFalse (by simp)
  case ok.error x y => exact isFalse (by simp)
  case ok.ok x y => exact decidable_of_iff (x = y) (by simp)

/-- Whether an exception is an instance of requests.exceptions.RequestException
(the only class caught by the two except clauses of get_average_hotel_price). -/
def PyErr.isRequestErr : PyErr → Bool
  | .requestException => true
  | .httpError _ => true
  | _ => false

/-- Python d.get(k, dflt): the value bound to k, the default when the key is
absent, and AttributeError when the receiver is not a dict. -/
def JVal.getD : JVal → String → JVal → Except PyErr JVal
  | .obj fs, k, dflt =>
      match fs.lookup k with
      | some v => .ok v
      | none => .ok dflt
  | _, _, _ => .error .attributeError

/-- Python d.get(k) with the implicit default None. -/
def JVal.get (v : JVal) (k : String) : Except PyErr JVal :=
  v.getD k .null

/-- Python truthiness of a JSON value. -/
def JVal.truthy : JVal → Bool
  | .null => false
  | .bool b => b
  | .num q => q != 0
  | .str s => s != ""
  | .arr xs => !xs.isEmpty
  | .obj fs => !fs.isEmpty

/-- Whether a JSON object carries the given key. -/
def JVal.hasKey : JVal → String → Bool
  | .obj fs, k => fs.any (fun kv => kv.1 == k)
  | _, _ => false

/-- Python iteration over a JSON value: the elements of a list, the keys of a
dict, the one-character strings of a string, TypeError otherwise. -/
def pyIter : JVal → Except PyErr (List JVal)
  | .arr xs => .ok xs
  | .obj fs => .ok (fs.map (fun kv => .str kv.1))
  | .str s => .ok (s.data.map (fun c => .str (String.mk [c])))
  | _ => .error .typeError

/-- Python hotels[:5] followed by iteration: slicing a list or a string keeps
the first five elements; slicing anything else raises TypeError. -/
def pyTakeFiveIter : JVal → Except PyErr (List JVal)
  | .arr xs => .ok (xs.take 5)
  | .str s => .ok ((s.data.take 5).map (fun c => .str (String.mk [c])))
  | _ => .error .typeError

/-- Python x[0]: first element of a list (IndexError when empty), first
character of a string, TypeError otherwise. -/
def pyIndexZero : JVal → Except PyErr JVal
  | .arr [] => .error .indexError
  | .arr (x :: _) => .ok x
  | .str s =>
      match s.data with
      | [] => .error .indexError
      | c :: _ => .ok (.str (String.mk [c]))
  | _ => .error .typeError

/-- Value of a list of decimal digit characters. -/
def digitsToNat (ds : List Char) : Nat :=
  ds.foldl (fun n c => n * 10 + (c.toNat - 48)) 0

/-- Decimal-string reading behind the model of Python float(): an optional
sign, digits, and an optional fractional part.  Returns none where Python
raises ValueError.  (The exotic inputs Python additionally accepts, such as
inf or exponent notation, never arise in the claims.) -/
def decOfString (s : String) : Option ℚ :=
  let l := s.data
  let sgn : Bool × List Char :=
    match l with
    | c :: rest =>
        if c = '-' then (true, rest)
        else if c = '+' then (false, rest) else (false, l)
    | [] => (false, [])
  let intPart := sgn.2.takeWhile Char.isDigit
  let rest := sgn.2.dropWhile Char.isDigit
  if intPart.isEmpty then none
  else
    match rest with
    | [] => some ((cond sgn.1 (-1) 1) * digitsToNat intPart)
    | c :: frac =>
        if c = Char.ofNat 46 ∧ frac ≠ [] ∧ frac.all Char.isDigit then
          some ((cond sgn.1 (-1) 1) *
            ((digitsToNat intPart : ℚ) + (digitsToNat frac : ℚ) / (10 ^ frac.length)))
        else none

/-- Python float(x) on a JSON value: numbers and bools convert, numeric
strings convert, other strings raise ValueError, and null, lists and dicts
raise TypeError. -/
def pyFloat : JVal → Except PyErr ℚ
  | .num q => .ok q
  | .bool b => .ok (if b then 1 else 0)
  | .str s =>
      match decOfString s with
      | some q => .ok q
      | none => .error .valueError
  | .null => .error .typeError
  | .arr _ => .error .typeError
  | .obj _ => .error .typeError

/-- Behaviour of the external Booking.com API during one call of
get_average_hotel_price: whether RAPIDAPI_KEY is set, and the outcome of
requests.get(...).json() at each of the two stages. -/
structure PriceEnv where
  apiKeyPresent : Bool
  locResponse : Except PyErr JVal
  searchResponse : Except PyErr JVal

/-- The destination-id loop of get_average_hotel_price (app.py 114-117): scan
the decoded locations for the first entry whose dest_type equals the string
city and take its dest_id; dest_id stays None otherwise. -/
def findDestId : List JVal → Except PyErr JVal
  | [] => .ok .null
  | loc :: rest => do
      let dt ← loc.get "dest_type"
      if dt = JVal.str "city" then loc.get "dest_id"
      else findDestId rest

/-- Body of the first try block of get_average_hotel_price (app.py 110-121):
fetch and decode the locations response and extract the destination id. -/
def locStage (env : PriceEnv) : Except PyErr JVal := do
  let locsJson ← env.locResponse
  let locs ← pyIter locsJson
  findDestId locs

/-- The price-collection loop of get_average_hotel_price (app.py 146-155): for
each hotel, descend through priceBreakdown, grossPrice and value, skipping
falsy or missing levels, and convert the value with float(). -/
def collectPrices : List JVal → Except PyErr (List ℚ)
  | [] => .ok []
  | hotel :: rest => do
      let pb ← hotel.get "priceBreakdown"
      if pb.truthy then
        let gp ← pb.get "grossPrice"
        if gp.truthy then
          let pv ← gp.get "value"
          if pv ≠ JVal.null then do
            let q ← pyFloat pv
            let qs ← collectPrices rest
            pure (q :: qs)
          else collectPrices rest
        else collectPrices rest
      else collectPrices rest

/-- Body of the second try block of get_average_hotel_price (app.py 136-163):
fetch and decode the hotel-search response, return the 3500.0 default for an
empty result set or when no price could be extracted, otherwise average the
prices collected from the first five hotels. -/
def searchStage (env : PriceEnv) : Except PyErr ℚ := do
  let dataJ ← env.searchResponse
  let hotelsJ ← dataJ.getD "results" (.arr [])
  if !hotelsJ.truthy then pure 3500
  else do
    let hotels ← pyTakeFiveIter hotelsJ
    let prices ← collectPrices hotels
    if prices = [] then pure 3500
    else pure (prices.sum / (prices.length : ℚ))

/-- Model of get_average_hotel_price (app.py 84-167).  The two except clauses
of the source catch requests.exceptions.RequestException only, so every other
exception raised inside the try blocks escapes as an error of this
function. -/
def get_average_hotel_price (env : PriceEnv) : Except PyErr ℚ :=
  if !env.apiKeyPresent then .ok 3500
  else
    match locStage env with
    | .error e => if e.isRequestErr then .ok 3500 else .error e
    | .ok destId =>
      if !destId.truthy then .ok 3500
      else
        match searchStage env with
        | .error e => if e.isRequestErr then .ok 3500 else .error e
        | .ok avg => .ok avg

/-- Behaviour of the OpenWeatherMap API during one call of get_todays_weather:
whether OPENWEATHER_API_KEY is set, and the outcome of
requests.get(...).raise_for_status() and .json(). -/
structure WeatherEnv where
  apiKeyPresent : Bool
  response : Except PyErr JVal

/-- Python str() of a JSON value, used by the f-strings of
get_todays_weather.  The exact rendering never matters to a claim. -/
def pyStr : JVal → String
  | .null => "None"
  | .bool true => "True"
  | .bool false => "False"
  | .num q => toString q
  | .str s => s
  | .arr _ => "<list>"
  | .obj _ => "<dict>"

/-- The response-parsing block of get_todays_weather (app.py 1019-1030), in
the Except monad: every exception raised here lands in the surrounding except
Exception clause of the source. -/
def parseWeather (dataJ : JVal) : Except PyErr JVal := do
  let warr ← dataJ.getD "weather" (.arr [.obj []])
  let w0 ← pyIndexZero warr
  let condition ← w0.getD "main" (.str "Unknown")
  let warr2 ← dataJ.getD "weather" (.arr [.obj []])
  let w1 ← pyIndexZero warr2
  let descr ← w1.getD "description" (.str "No description")
  let mainObj ← dataJ.getD "main" (.obj [])
  let temp ← mainObj.getD "temp" (.num 0)
  pure (.obj [("condition", condition),
              ("description", .str ("Current condition is " ++ pyStr descr)),
              ("temperature_celsius", temp)])

/-- Model of get_todays_weather (app.py 993-1040).  It is total into JVal: the
missing-key guard returns an error dict, an HTTPError from the request is
rendered with its status code, and every other exception is caught by the
except Exception clause and rendered as an error dict, so nothing escapes. -/
def get_todays_weather (env : WeatherEnv) : JVal :=
  if !env.apiKeyPresent then .obj [("error", .str "Weather service is not configured.")]
  else
    match (do
      let dataJ ← env.response
      parseWeather dataJ : Except PyErr JVal) with
    | .ok report => report
    | .error (.httpError code) =>
        .obj [("error", .str ("Could not retrieve weather: " ++ toString code))]
    | .error _ =>
        .obj [("error", .str "Could not retrieve weather: <exception>")]

/-- A tool-call request embedded in a model reply (a vertexai FunctionCall:
tool name plus its single destination argument). -/
structure ToolCall where
  name : String
  argDestination : String
deriving DecidableEq

/-- One model reply as the loops of plan_trip and adjust_for_weather see it:
the optional function_call attribute of the first content part, and the
textual content exposed by response.text. -/
structure Reply where
  functionCall : Option ToolCall
  text : String
deriving DecidableEq

/-- The tool-call loop shared by plan_trip (app.py 346-365) and
adjust_for_weather (app.py 1081-1096), parametrised by the predicate isKnown
on tool names the flow dispatches.  The stub replies gives the model reply in
hand after each dispatch: replies 0 answers the initial prompt and replies k
answers the k-th tool-result message, so quantifying over all such streams
covers every model and executor behaviour.  count mirrors tool_call_count,
current mirrors response, and rem is the number of iterations the guard
tool_call_count < max_tool_calls still allows.  Returns the final counter,
the dispatched calls in order, and the reply in hand at loop exit. -/
def toolLoopGo (replies : Nat → Reply) (isKnown : String → Bool) :
    Nat → Nat → List ToolCall → Reply → Nat × List ToolCall × Reply
  | 0, count, disp, current => (count, disp, current)
  | rem + 1, count, disp, current =>
      match current.functionCall with
      | none => (count, disp, current)
      | some fc =>
          if isKnown fc.name then
            toolLoopGo replies isKnown rem (count + 1) (disp ++ [fc]) (replies (count + 1))
          else (count + 1, disp, current)

/-- The tool-call loop as both routes start it: counter zero, no dispatches,
and the reply to the initial prompt in hand. -/
def toolLoop (replies : Nat → Reply) (isKnown : String → Bool)
    (maxToolCalls : Nat) : Nat × List ToolCall × Reply :=
  toolLoopGo replies isKnown maxToolCalls 0 [] (replies 0)

/-- Tool names the planning flow dispatches (app.py 355-361). -/
def planKnownTool (name : String) : Bool :=
  name == "get_average_hotel_price" || name == "get_todays_weather"

/-- The only tool name the weather-adjustment flow dispatches (app.py 1089). -/
def weatherKnownTool (name : String) : Bool :=
  name == "get_todays_weather"

/-- After the loop exits, both routes read response.text from the reply in
hand (app.py 371 and 1102); the loop itself cannot raise.  This is the raw
text handed to the output extractor. -/
def orchestrateRawText (replies : Nat → Reply) (isKnown : String → Bool)
    (maxToolCalls : Nat) : String :=
  (toolLoop replies isKnown maxToolCalls).2.2.text

/-- Whether pat is a prefix of the character list s. -/
def startsWithList : List Char → List Char → Bool
  | [], _ => true
  | _ :: _, [] => false
  | p :: ps, c :: cs => p == c && startsWithList ps cs

/-- Index of the first occurrence of pat at or after offset i. -/
def firstOccAux (pat : List Char) : List Char → Nat → Option Nat
  | [], i => if startsWithList pat [] then some i else none
  | c :: cs, i =>
      if startsWithList pat (c :: cs) then some i
      else firstOccAux pat cs (i + 1)

/-- Index of the first occurrence of pat in s, none when absent. -/
def firstOcc (pat s : List Char) : Option Nat :=
  firstOccAux pat s 0

/-- Python substring test, pat in s. -/
def containsSub (s pat : List Char) : Bool :=
  (firstOcc pat s).isSome

/-- Python substring test on strings. -/
def strContains (s pat : String) : Bool :=
  containsSub s.data pat.data

/-- Outcome of one conversation attempt as the retry loops classify it: a
successful value, a raised ResourceExhausted, or any other exception carrying
its message string str(e). -/
inductive Attempt (α : Type) where
  | ok : α → Attempt α
  | rateLimited : Attempt α
  | otherError : String → Attempt α
deriving DecidableEq

/-- Terminal outcome of the plan_trip retry loop (app.py 335-413): redirect to
the itinerary on success, or one of the flashed error messages.  busyError
covers the identical service-busy flash of both the ResourceExhausted branch
and the 429-classified generic branch; fellThrough is the implicit Python
None were the for loop ever to finish. -/
inductive PlanOutcome (α : Type) where
  | success : α → PlanOutcome α
  | busyError : PlanOutcome α
  | malformedCallError : PlanOutcome α
  | genericError : PlanOutcome α
  | fellThrough : PlanOutcome α
deriving DecidableEq

/-- The message classification in the generic except clause of plan_trip
(app.py 401-413). -/
def classifyPlanError {α : Type} (msg : String) : PlanOutcome α :=
  if strContains msg "Malformed function call" then .malformedCallError
  else if strContains msg "Resource Exhausted" || strContains msg "429" then .busyError
  else .genericError

/-- The retry loop of plan_trip (app.py 335-413).  attempt is the Python loop
variable, rem the iterations range(max_retries) still yields, and sleeps the
time.sleep durations so far, in seconds and in order.  A rate-limited attempt
sleeps 2 seconds and retries unless it was the last; any other exception
returns a flashed message at once, with no sleep and no retry.  Returns the
outcome, the sleeps, and the number of attempts made. -/
def planRetryGo {α : Type} (f : Nat → Attempt α) (maxRetries : Nat) :
    Nat → Nat → List Nat → PlanOutcome α × List Nat × Nat
  | 0, attempt, sleeps => (.fellThrough, sleeps, attempt)
  | rem + 1, attempt, sleeps =>
      match f attempt with
      | .ok a => (.success a, sleeps, attempt + 1)
      | .rateLimited =>
          if attempt + 1 = maxRetries then (.busyError, sleeps, attempt + 1)
          else planRetryGo f maxRetries rem (attempt + 1) (sleeps ++ [2])
      | .otherError msg => (classifyPlanError msg, sleeps, attempt + 1)

/-- The plan_trip retry loop with the source constants, max_retries = 3. -/
def planRetry {α : Type} (f : Nat → Attempt α) : PlanOutcome α × List Nat × Nat :=
  planRetryGo f 3 3 0 []

/-- Terminal outcome of the adjust_for_weather retry loop (app.py 1070-1126):
the jsonified activities on success, the 503 busy error after three rate
limits, or the 500 error carrying str(e) after three generic failures. -/
inductive WeatherOutcome (α : Type) where
  | success : α → WeatherOutcome α
  | busy503 : WeatherOutcome α
  | error500 : String → WeatherOutcome α
  | fellThrough : WeatherOutcome α
deriving DecidableEq

/-- The retry loop of adjust_for_weather (app.py 1070-1126): a rate-limited
attempt sleeps 2 seconds and retries unless it was the last; any other
exception ALSO retries, sleeping 1 second, and only on the last attempt
returns the 500 error, unlike plan_trip which never retries non-rate-limit
failures. -/
def weatherRetryGo {α : Type} (f : Nat → Attempt α) (maxRetries : Nat) :
    Nat → Nat → List Nat → WeatherOutcome α × List Nat × Nat
  | 0, attempt, sleeps => (.fellThrough, sleeps, attempt)
  | rem + 1, attempt, sleeps =>
      match f attempt with
      | .ok a => (.success a, sleeps, attempt + 1)
      | .rateLimited =>
          if attempt + 1 = maxRetries then (.busy503, sleeps, attempt + 1)
          else weatherRetryGo f maxRetries rem (attempt + 1) (sleeps ++ [2])
      | .otherError msg =>
          if attempt + 1 = maxRetries then (.error500 msg, sleeps, attempt + 1)
          else weatherRetryGo f maxRetries rem (attempt + 1) (sleeps ++ [1])

/-- The adjust_for_weather retry loop with the source constants,
max_retries = 3. -/
def weatherRetry {α : Type} (f : Nat → Attempt α) : WeatherOutcome α × List Nat × Nat :=
  weatherRetryGo f 3 3 0 []

/-- The characters sanitize_input removes (security.py 121): the two angle
brackets, the double quote, the single quote and the ampersand. -/
def dangerousChars : List Char :=
  ['<', '>', Char.ofNat 34, Char.ofNat 39, '&']

/-- The ASCII whitespace characters Python str.strip removes: space, tab,
newline, carriage return, vertical tab and form feed. -/
def isPySpace (c : Char) : Bool :=
  c == ' ' || c == Char.ofNat 9 || c == Char.ofNat 10 || c == Char.ofNat 13 ||
    c == Char.ofNat 11 || c == Char.ofNat 12

/-- Python str.strip() on a character list. -/
def pyStrip (l : List Char) : List Char :=
  ((l.dropWhile isPySpace).reverse.dropWhile isPySpace).reverse

/-- Model of sanitize_input (security.py 103-128): empty input maps to the
empty string; otherwise truncate to max_length, delete the five dangerous
characters by successive str.replace calls, and strip whitespace. -/
def sanitize_input (s : String) (maxLength : Nat) : String :=
  if s = "" then ""
  else
    let t := s.data.take maxLength
    let t := dangerousChars.foldl (fun acc c => acc.filter (fun d => d ≠ c)) t
    String.mk (pyStrip t)

/-- The double-quote character, written via its code point. -/
def dquoteChar : Char := Char.ofNat 34

/-- The backslash character. -/
def backslashChar : Char := Char.ofNat 92

/-- The opening curly brace character. -/
def lbraceChar : Char := Char.ofNat 123

/-- The closing curly brace character. -/
def rbraceChar : Char := Char.ofNat 125

/-- The backtick character. -/
def backtickChar : Char := Char.ofNat 96

/-- The opening square bracket character. -/
def lbrackChar : Char := '['

/-- The closing square bracket character. -/
def rbrackChar : Char := ']'

/-- The ten decimal digit characters. -/
def digitChars : List Char := ['0', '1', '2', '3', '4', '5', '6', '7', '8', '9']

/-- The digit character for a residue below ten. -/
def digitChar (r : Nat) : Char := digitChars.getD r '0'

/-- Decimal digits of a positive number, most significant first, accumulated
from the right. -/
def natDigitsGo : Nat → List Char → List Char
  | 0, acc => acc
  | n + 1, acc =>
      natDigitsGo ((n + 1) / 10) (digitChar ((n + 1) % 10) :: acc)
decreasing_by exact Nat.div_lt_self (Nat.succ_pos n) (by omega)

/-- Decimal digits of a natural number, most significant first. -/
def natDigits (n : Nat) : List Char :=
  if n = 0 then ['0'] else natDigitsGo n []

/-- json.dumps rendering of an integer. -/
def dumpInt (n : Int) : List Char :=
  if n < 0 then '-' :: natDigits n.natAbs else natDigits n.toNat

mutual

/-- Model of json.dumps with the default separators, on character lists.
Well-formed documents (wfJ below) restrict strings so that no escape
sequences arise, and numbers to integers, which Python renders in plain
decimal. -/
def dumpsJ : JVal → List Char
  | .bool false => ['f', 'a', 'l', 's', 'e']
  | .bool true => ['t', 'r', 'u', 'e']
  | .null => ['n', 'u', 'l', 'l']
  | .num q => dumpInt q.num
  | .str s => dquoteChar :: s.data ++ [dquoteChar]
  | .arr [] => [lbrackChar, rbrackChar]
  | .arr (x :: xs) => lbrackChar :: (dumpsJ x ++ dumpsItems xs) ++ [rbrackChar]
  | .obj [] => [lbraceChar, rbraceChar]
  | .obj (kv :: fs) => lbraceChar :: (dumpsField kv ++ dumpsFields fs) ++ [rbraceChar]

/-- Remaining array items, each preceded by the default separator. -/
def dumpsItems : List JVal → List Char
  | [] => []
  | x :: xs => ',' :: ' ' :: dumpsJ x ++ dumpsItems xs

/-- A single object field, key colon space value. -/
def dumpsField : String × JVal → List Char
  | (k, v) => dquoteChar :: k.data ++ [dquoteChar, ':', ' '] ++ dumpsJ v

/-- Remaining object fields, each preceded by the default separator. -/
def dumpsFields : List (String × JVal) → List Char
  | [] => []
  | kv :: fs => ',' :: ' ' :: dumpsField kv ++ dumpsFields fs

end

/-- Printable ASCII characters other than the double quote and the backslash:
json.dumps emits such string content verbatim, with no escape sequences. -/
def goodStrChar (c : Char) : Bool :=
  32 ≤ c.toNat && c.toNat < 127 && c ≠ dquoteChar && c ≠ backslashChar

mutual

/-- Well-formed structured documents for the round-trip development: numbers
are integral (Python floats have no exact model here) and strings, keys
included, consist of printable ASCII without double quote or backslash. -/
def wfJ : JVal → Bool
  | .null => true
  | .bool _ => true
  | .num q => q.den == 1
  | .str s => s.data.all goodStrChar
  | .arr xs => wfItems xs
  | .obj fs => wfFields fs

/-- Well-formedness of array elements. -/
def wfItems : List JVal → Bool
  | [] => true
  | x :: xs => wfJ x && wfItems xs

/-- Well-formedness of object fields. -/
def wfFields : List (String × JVal) → Bool
  | [] => true
  | (k, v) :: fs => k.data.all goodStrChar && wfJ v && wfFields fs

end

mutual

/-- Fuel needed by the parser below to read one serialized value. -/
def rankJ : JVal → Nat
  | .null => 1
  | .bool _ => 1
  | .num _ => 1
  | .str _ => 1
  | .arr xs => 1 + rankItems xs
  | .obj fs => 1 + rankFields fs

/-- Fuel needed to read the remaining array items. -/
def rankItems : List JVal → Nat
  | [] => 0
  | x :: xs => 1 + rankJ x + rankItems xs

/-- Fuel needed to read the remaining object fields. -/
def rankFields : List (String × JVal) → Nat
  | [] => 0
  | kv :: fs => 1 + rankJ kv.2 + rankFields fs

end

/-- The whitespace characters json.loads skips between tokens. -/
def isJsonWs (c : Char) : Bool :=
  c == ' ' || c == Char.ofNat 9 || c == Char.ofNat 10 || c == Char.ofNat 13

/-- Skip inter-token whitespace. -/
def skipWs (s : List Char) : List Char :=
  s.dropWhile isJsonWs

/-- Read string-literal characters up to the closing double quote.  A
backslash makes the model give up: escapes never arise for well-formed
documents, and no claim depends on them. -/
def parseStrChars : List Char → Option (List Char × List Char)
  | [] => none
  | c :: cs =>
      if c = dquoteChar then some ([], cs)
      else if c = backslashChar then none
      else (parseStrChars cs).map (fun p => (c :: p.1, p.2))

/-- Read the digits of an integer literal; neg records a consumed minus
sign. -/
def parseNumTail (neg : Bool) (s : List Char) : Option (JVal × List Char) :=
  let ds := s.takeWhile Char.isDigit
  if ds.isEmpty then none
  else
    let n : ℚ := (digitsToNat ds : ℚ)
    some (.num (if neg then -n else n), s.dropWhile Char.isDigit)

/-- Expect a fixed literal continuation, returning what follows it. -/
def expectChars (pat : List Char) (s : List Char) : Option (List Char) :=
  if startsWithList pat s then some (s.drop pat.length) else none

mutual

/-- Fuel-indexed model of the json.loads recursive-descent value parser,
covering the fragment json.dumps emits for well-formed documents.  Returns
the value and the unconsumed remainder, none on malformed input or exhausted
fuel. -/
def parseVal : Nat → List Char → Option (JVal × List Char)
  | 0, _ => none
  | fuel + 1, s =>
      match skipWs s with
      | [] => none
      | c :: r =>
          if c = 'n' then
            (expectChars ['u', 'l', 'l'] r).map (fun r2 => (JVal.null, r2))
          else if c = 't' then
            (expectChars ['r', 'u', 'e'] r).map (fun r2 => (JVal.bool true, r2))
          else if c = 'f' then
            (expectChars ['a', 'l', 's', 'e'] r).map (fun r2 => (JVal.bool false, r2))
          else if c = dquoteChar then
            (parseStrChars r).map (fun p => (JVal.str (String.mk p.1), p.2))
          else if c = lbrackChar then
            match skipWs r with
            | d :: r2 =>
                if d = rbrackChar then some (.arr [], r2)
                else (parseItems fuel r).map (fun p => (JVal.arr p.1, p.2))
            | [] => none
          else if c = lbraceChar then
            match skipWs r with
            | d :: r2 =>
                if d = rbraceChar then some (.obj [], r2)
                else (parseFields fuel r).map (fun p => (JVal.obj p.1, p.2))
            | [] => none
          else if c = '-' then parseNumTail true r
          else if c.isDigit then parseNumTail false (c :: r)
          else none

/-- Items of a non-empty array, finished by the closing bracket. -/
def parseItems : Nat → List Char → Option (List JVal × List Char)
  | 0, _ => none
  | fuel + 1, s => do
      let (v, r) ← parseVal fuel s
      match skipWs r with
      | c :: r2 =>
          if c = ',' then do
            let (vs, r3) ← parseItems fuel r2
            pure (v :: vs, r3)
          else if c = rbrackChar then pure ([v], r2)
          else none
      | [] => none

/-- Fields of a non-empty object, finished by the closing brace. -/
def parseFields : Nat → List Char → Option (List (String × JVal) × List Char)
  | 0, _ => none
  | fuel + 1, s =>
      match skipWs s with
      | c :: r =>
          if c = dquoteChar then do
            let (k, r2) ← parseStrChars r
            match skipWs r2 with
            | d :: r3 =>
                if d = ':' then do
                  let (v, r4) ← parseVal fuel r3
                  match skipWs r4 with
                  | e :: r5 =>
                      if e = ',' then do
                        let (fs, r6) ← parseFields fuel r5
                        pure ((String.mk k, v) :: fs, r6)
                      else if e = rbraceChar then pure ([(String.mk k, v)], r5)
                      else none
                  | [] => none
                else none
            | [] => none
          else none
      | [] => none

end

/-- Model of json.loads: parse one value and require only whitespace after
it.  json.loads signals failure with json.JSONDecodeError, a ValueError
subclass.  The fuel, one more than the input length, is enough for any
document whose serialization fits in the input (rank bound proved below). -/
def loads (s : List Char) : Except PyErr JVal :=
  match parseVal (s.length + 1) s with
  | some (v, rest) => if (skipWs rest).isEmpty then .ok v else .error .valueError
  | none => .error .valueError

/-- A prefix test bounds the pattern length by the text length. -/
theorem startsWithList_length {pat t : List Char}
    (h : startsWithList pat t = true) : pat.length ≤ t.length := by
  induction pat generalizing t with
  | nil => simp
  | cons p ps ih =>
      cases t with
      | nil => simp [startsWithList] at h
      | cons c cs =>
          simp only [startsWithList, Bool.and_eq_true] at h
          simpa using Nat.succ_le_succ (ih h.2)

/-- What a successful firstOccAux search means: the reported index is past the
offset, within the text, the pattern occurs there, and nowhere earlier. -/
theorem firstOccAux_spec (pat : List Char) :
    ∀ (s : List Char) (i j : Nat), firstOccAux pat s i = some j →
      i ≤ j ∧ j - i ≤ s.length ∧ startsWithList pat (s.drop (j - i)) = true ∧
        ∀ k, k < j - i → startsWithList pat (s.drop k) = false := by
  intro s
  induction s with
  | nil =>
      intro i j h
      rw [firstOccAux] at h
      split_ifs at h with hsw
      · simp only [Option.some.injEq] at h
        subst h
        exact ⟨le_refl _, by simp, by simpa using hsw, fun k hk => absurd hk (by omega)⟩
  | cons c cs ih =>
      intro i j h
      rw [firstOccAux] at h
      split_ifs at h with hsw
      · simp only [Option.some.injEq] at h
        subst h
        exact ⟨le_refl _, by simp, by simpa using hsw, fun k hk => absurd hk (by omega)⟩
      · obtain ⟨h1, h0, h2, h3⟩ := ih (i + 1) j h
        refine ⟨by omega, by simp; omega, ?_, ?_⟩
        · have he : j - i = (j - (i + 1)) + 1 := by omega
          rw [he]
          simpa using h2
        · intro k hk
          cases k with
          | zero => simpa using hsw
          | succ k =>
              have hk2 : k < j - (i + 1) := by omega
              simpa using h3 k hk2

/-- A failed firstOccAux search means the pattern occurs nowhere. -/
theorem firstOccAux_none (pat : List Char) :
    ∀ (s : List Char) (i : Nat), firstOccAux pat s i = none →
      ∀ k, startsWithList pat (s.drop k) = false := by
  intro s
  induction s with
  | nil =>
      intro i h k
      rw [firstOccAux] at h
      split_ifs at h with hsw
      simpa using hsw
  | cons c cs ih =>
      intro i h k
      rw [firstOccAux] at h
      split_ifs at h with hsw
      cases k with
      | zero => simpa using hsw
      | succ k => simpa using ih (i + 1) h k

/-- What a successful firstOcc search means. -/
theorem firstOcc_spec {pat s : List Char} {j : Nat} (h : firstOcc pat s = some j) :
    startsWithList pat (s.drop j) = true ∧
      ∀ k, k < j → startsWithList pat (s.drop k) = false := by
  obtain ⟨-, -, h2, h3⟩ := firstOccAux_spec pat s 0 j h
  simpa using ⟨h2, h3⟩

/-- A successful firstOcc search fits inside the text. -/
theorem firstOcc_le {pat s : List Char} {j : Nat} (h : firstOcc pat s = some j) :
    j + pat.length ≤ s.length := by
  obtain ⟨-, h0, h2, -⟩ := firstOccAux_spec pat s 0 j h
  have h4 := startsWithList_length h2
  simp only [List.length_drop, Nat.sub_zero] at h0 h2 h4
  omega

/-- All pieces of Python s.split(sep) for a non-empty separator: the text
before the first occurrence, then recursively the pieces of what follows
it. -/
def splitList (sep : List Char) (s : List Char) : List (List Char) :=
  if hsep : sep.length = 0 then [s]
  else
    match hocc : firstOcc sep s with
    | none => [s]
    | some i => s.take i :: splitList sep (s.drop (i + sep.length))
termination_by s.length
decreasing_by
  have h1 := firstOcc_le hocc
  simp only [List.length_drop]
  omega

/-- Python s.find(c): index of the first occurrence of a character, -1 when
absent. -/
def pyFind (c : Char) (s : List Char) : Int :=
  match firstOcc [c] s with
  | some i => (i : Int)
  | none => -1

/-- Python s.rfind(c): index of the last occurrence, -1 when absent (the
first occurrence in the reversed text, re-indexed). -/
def pyRfind (c : Char) (s : List Char) : Int :=
  match firstOcc [c] s.reverse with
  | some i => (s.length : Int) - 1 - (i : Int)
  | none => -1

/-- Clamp one endpoint of a Python slice of a sequence of length len:
negative indices count from the end (never below zero), nonnegative ones are
capped at len. -/
def pySliceIdx (len : Nat) (i : Int) : Nat :=
  if i < 0 then ((len : Int) + i).toNat else min i.toNat len

/-- Python s[i:j] with full slice semantics. -/
def pySlice (s : List Char) (i j : Int) : List Char :=
  (s.take (pySliceIdx s.length j)).drop (pySliceIdx s.length i)

/-- Python list indexing xs[i], raising IndexError when out of range. -/
def pyIndexList : List (List Char) → Nat → Except PyErr (List Char)
  | x :: _, 0 => .ok x
  | _ :: l, n + 1 => pyIndexList l n
  | [], _ => .error .indexError

/-- The json-marked fence marker, three backticks then the letters json. -/
def fenceMarkerJson : List Char :=
  [backtickChar, backtickChar, backtickChar, 'j', 's', 'o', 'n']

/-- The plain fence marker, three backticks. -/
def fenceMarker : List Char :=
  [backtickChar, backtickChar, backtickChar]

/-- The fenced-block narrowing of plan_trip (app.py 373-377): strip, then cut
to the content after the first json-marked fence (up to the next fence), else
after the first plain fence. -/
def objectCleaned (raw : List Char) : Except PyErr (List Char) := do
  let cleaned := pyStrip raw
  if containsSub cleaned fenceMarkerJson then do
    let p1 ← pyIndexList (splitList fenceMarkerJson cleaned) 1
    pyIndexList (splitList fenceMarker p1) 0
  else if containsSub cleaned fenceMarker then do
    let p1 ← pyIndexList (splitList fenceMarker cleaned) 1
    pyIndexList (splitList fenceMarker p1) 0
  else pure cleaned

/-- The object-mode output extractor of plan_trip (app.py 371-386): narrow to
the fenced block, locate the first opening and last closing brace, slice
inclusively and json.loads the slice; the explicit guard raises ValueError
when either brace is absent. -/
def extractJsonObject (raw : List Char) : Except PyErr JVal := do
  let cleaned ← objectCleaned raw
  let js := pyFind lbraceChar cleaned
  let je := pyRfind rbraceChar cleaned + 1
  if js = -1 ∨ je = 0 then .error .valueError
  else loads (pySlice cleaned js je)

/-- The fenced-block narrowing of adjust_for_weather (app.py 1102-1104): like
the object mode but with no fallback branch for an unmarked fence. -/
def arrayCleaned (raw : List Char) : Except PyErr (List Char) := do
  let cleaned := pyStrip raw
  if containsSub cleaned fenceMarkerJson then do
    let p1 ← pyIndexList (splitList fenceMarkerJson cleaned) 1
    pyIndexList (splitList fenceMarker p1) 0
  else pure cleaned

/-- The array-mode output extractor of adjust_for_weather (app.py 1102-1110):
narrow to the fenced block, slice from the first opening to the last closing
bracket with Python slice semantics (there is no guard: an absent bracket
makes the indices -1 and 0) and json.loads the slice. -/
def extractJsonArray (raw : List Char) : Except PyErr JVal := do
  let cleaned ← arrayCleaned raw
  let js := pyFind lbrackChar cleaned
  let je := pyRfind rbrackChar cleaned + 1
  loads (pySlice cleaned js je)

/-- The head of a dropWhile result fails the predicate. -/
theorem dropWhile_head_false {p : Char → Bool} :
    ∀ {l : List Char} {c : Char} {rest : List Char},
      l.dropWhile p = c :: rest → p c = false := by
  intro l
  induction l with
  | nil => intro c rest h; simp at h
  | cons a l ih =>
      intro c rest h
      rw [List.dropWhile_cons] at h
      split_ifs at h with hp
      · exact ih h
      · simp only [List.cons.injEq] at h
        obtain ⟨rfl, -⟩ := h
        simpa using hp

/-- Surviving the successive str.replace calls means surviving each one. -/
theorem mem_foldl_filter (ds : List Char) :
    ∀ (l : List Char) (c : Char),
      c ∈ ds.foldl (fun acc d => acc.filter (fun e => e ≠ d)) l →
        c ∈ l ∧ c ∉ ds := by
  induction ds with
  | nil => intro l c h; simpa using h
  | cons d ds ih =>
      intro l c h
      rw [List.foldl_cons] at h
      obtain ⟨h1, h2⟩ := ih (l.filter (fun e => e ≠ d)) c h
      rw [List.mem_filter] at h1
      refine ⟨h1.1, ?_⟩
      simp only [List.mem_cons, not_or]
      exact ⟨by simpa using h1.2, h2⟩

/-- The foldl of filters only shortens the list. -/
theorem length_foldl_filter (ds : List Char) :
    ∀ (l : List Char),
      (ds.foldl (fun acc d => acc.filter (fun e => e ≠ d)) l).length ≤ l.length := by
  induction ds with
  | nil => intro l; simp
  | cons d ds ih =>
      intro l
      rw [List.foldl_cons]
      exact le_trans (ih _) (List.length_filter_le _ _)

/-- Stripping only shortens the list. -/
theorem length_pyStrip_le (l : List Char) : (pyStrip l).length ≤ l.length := by
  unfold pyStrip
  calc ((l.dropWhile isPySpace).reverse.dropWhile isPySpace).reverse.length
      = ((l.dropWhile isPySpace).reverse.dropWhile isPySpace).length := by
        rw [List.length_reverse]
    _ ≤ (l.dropWhile isPySpace).reverse.length := (List.dropWhile_sublist _).length_le
    _ = (l.dropWhile isPySpace).length := by rw [List.length_reverse]
    _ ≤ l.length := (List.dropWhile_sublist _).length_le

/-- Stripping keeps only characters of the original list. -/
theorem mem_pyStrip {l : List Char} {c : Char} (h : c ∈ pyStrip l) : c ∈ l := by
  unfold pyStrip at h
  rw [List.mem_reverse] at h
  have h1 := (List.dropWhile_sublist _).mem h
  rw [List.mem_reverse] at h1
  exact (List.dropWhile_sublist _).mem h1

/-- The stripped list is an initial segment of the left-stripped list: the
remainder is the reversed run of trailing whitespace. -/
theorem pyStrip_decomp (l : List Char) :
    l.dropWhile isPySpace =
      pyStrip l ++ ((l.dropWhile isPySpace).reverse.takeWhile isPySpace).reverse := by
  unfold pyStrip
  calc l.dropWhile isPySpace
      = ((l.dropWhile isPySpace).reverse).reverse := by rw [List.reverse_reverse]
    _ = ((l.dropWhile isPySpace).reverse.takeWhile isPySpace ++
          (l.dropWhile isPySpace).reverse.dropWhile isPySpace).reverse := by
        rw [List.takeWhile_append_dropWhile]
    _ = _ := by rw [List.reverse_append]

/-- The first character of a stripped list is not whitespace. -/
theorem pyStrip_head {l : List Char} {c : Char} {rest : List Char}
    (h : pyStrip l = c :: rest) : isPySpace c = false := by
  have h2 := pyStrip_decomp l
  rw [h, List.cons_append] at h2
  exact dropWhile_head_false h2

/-- The last character of a stripped list is not whitespace. -/
theorem pyStrip_last {l : List Char} {c : Char}
    (h : (pyStrip l).getLast? = some c) : isPySpace c = false := by
  unfold pyStrip at h
  rw [List.getLast?_reverse] at h
  rcases hd : (l.dropWhile isPySpace).reverse.dropWhile isPySpace with _ | ⟨a, t⟩
  · rw [hd] at h; simp at h
  · rw [hd] at h
    simp only [List.head?_cons, Option.some.injEq] at h
    subst h
    exact dropWhile_head_false hd

/-- Whether a string avoids every character sanitize_input removes. -/
def noDangerous (s : String) : Bool :=
  s.data.all (fun c => !(dangerousChars.contains c))

/-- Whether a string neither starts nor ends with Python whitespace. -/
def edgeTrimmed (s : String) : Bool :=
  (match s.data.head? with
   | some c => !isPySpace c
   | none => true) &&
  (match s.data.getLast? with
   | some c => !isPySpace c
   | none => true)

/-- C10: for every input string and maximum length, sanitize_input returns a
string of length at most max_length, containing none of the characters
removed as dangerous (angle brackets, double quote, single quote, ampersand),
with no leading or trailing whitespace; empty (falsy) input yields the empty
string. -/
theorem C10_sanitize_input_safe (s : String) (maxLength : Nat) :
    (sanitize_input s maxLength).length ≤ maxLength ∧
      noDangerous (sanitize_input s maxLength) = true ∧
      edgeTrimmed (sanitize_input s maxLength) = true ∧
      sanitize_input "" maxLength = "" := by
  have hempty : sanitize_input "" maxLength = "" := by
    unfold sanitize_input
    rw [if_pos rfl]
  by_cases hs : s = ""
  · subst hs
    refine ⟨?_, ?_, ?_, hempty⟩ <;> rw [hempty]
    · simp [String.length]
    · decide
    · decide
  · have hres : sanitize_input s maxLength =
        String.mk (pyStrip (dangerousChars.foldl
          (fun acc c => acc.filter (fun d => d ≠ c)) (s.data.take maxLength))) := by
      unfold sanitize_input
      rw [if_neg hs]
    refine ⟨?_, ?_, ?_, hempty⟩ <;> rw [hres]
    · show (pyStrip _).length ≤ maxLength
      refine le_trans (length_pyStrip_le _) (le_trans (length_foldl_filter _ _) ?_)
      exact List.length_take_le maxLength s.data
    · unfold noDangerous
      rw [List.all_eq_true]
      intro c hc
      have h1 := mem_pyStrip hc
      have h2 := (mem_foldl_filter dangerousChars _ c h1).2
      simpa [List.contains, List.elem_iff] using h2
    · rcases hd : pyStrip (dangerousChars.foldl
          (fun acc c => acc.filter (fun d => d ≠ c)) (s.data.take maxLength))
          with _ | ⟨c, rest⟩
      · decide
      · have hhead := pyStrip_head hd
        rcases hl : (c :: rest).getLast? with _ | d
        · simp at hl
        · have hlast := @pyStrip_last (dangerousChars.foldl
            (fun acc c => acc.filter (fun d => d ≠ c)) (s.data.take maxLength)) d
            (by rw [hd]; exact hl)
          simp [edgeTrimmed, hl, hhead, hlast]

/-- Every digitChar lands in the digit table. -/
theorem digitChar_mem (r : Nat) : digitChar r ∈ digitChars := by
  by_cases h : r < 10
  · interval_cases r <;> decide
  · unfold digitChar
    rw [List.getD_eq_default]
    · decide
    · simp [digitChars]; omega

/-- The digit characters are digits and none of the parser delimiters. -/
theorem digitChars_facts : ∀ c ∈ digitChars, c.isDigit = true ∧
    isJsonWs c = false ∧ c ≠ rbrackChar ∧ c ≠ rbraceChar ∧ c ≠ 'n' ∧ c ≠ 't' ∧
    c ≠ 'f' ∧ c ≠ dquoteChar ∧ c ≠ lbrackChar ∧ c ≠ lbraceChar ∧ c ≠ '-' ∧
    c ≠ ',' ∧ c ≠ ':' := by decide

/-- Numeric value of a digit character. -/
theorem digitChar_toNat {r : Nat} (h : r < 10) : (digitChar r).toNat - 48 = r := by
  interval_cases r <;> decide

/-- natDigitsGo with an accumulator is natDigitsGo alone, then the
accumulator. -/
theorem natDigitsGo_shift (n : Nat) : ∀ acc : List Char,
    natDigitsGo n acc = natDigitsGo n [] ++ acc := by
  induction n using Nat.strong_induction_on with
  | _ n ih =>
      intro acc
      match n with
      | 0 => simp [natDigitsGo]
      | m + 1 =>
          rw [natDigitsGo, natDigitsGo]
          have hq : (m + 1) / 10 < m + 1 := Nat.div_lt_self (Nat.succ_pos m) (by omega)
          rw [ih ((m + 1) / 10) hq (digitChar ((m + 1) % 10) :: acc),
            ih ((m + 1) / 10) hq [digitChar ((m + 1) % 10)]]
          simp

/-- natDigitsGo emits digit-table characters only. -/
theorem natDigitsGo_mem (n : Nat) : ∀ acc, (∀ c ∈ acc, c ∈ digitChars) →
    ∀ c ∈ natDigitsGo n acc, c ∈ digitChars := by
  induction n using Nat.strong_induction_on with
  | _ n ih =>
      intro acc hacc c hc
      match n with
      | 0 => rw [natDigitsGo] at hc; exact hacc c hc
      | m + 1 =>
          rw [natDigitsGo] at hc
          have hq : (m + 1) / 10 < m + 1 := Nat.div_lt_self (Nat.succ_pos m) (by omega)
          refine ih ((m + 1) / 10) hq _ ?_ c hc
          intro d hd
          rcases List.mem_cons.mp hd with rfl | hd
          · exact digitChar_mem _
          · exact hacc d hd

/-- natDigits is never empty. -/
theorem natDigits_ne_nil (n : Nat) : natDigits n ≠ [] := by
  unfold natDigits
  split_ifs with h
  · simp
  · match n, h with
    | m + 1, _ =>
        rw [natDigitsGo, natDigitsGo_shift]
        simp

/-- natDigits emits digit-table characters only. -/
theorem natDigits_mem (n : Nat) : ∀ c ∈ natDigits n, c ∈ digitChars := by
  unfold natDigits
  split_ifs with h
  · intro c hc; simp at hc; subst hc; decide
  · exact natDigitsGo_mem n [] (by simp)

/-- Value of the digits of a positive number under the digit fold, with an
arbitrary prefix weight. -/
theorem valFrom_natDigitsGo (n : Nat) : n ≠ 0 → ∀ w : Nat,
    List.foldl (fun a c => a * 10 + (c.toNat - 48)) w (natDigitsGo n []) =
      w * 10 ^ (natDigitsGo n []).length + n := by
  induction n using Nat.strong_induction_on with
  | _ n ih =>
      intro hn w
      match n, hn with
      | m + 1, _ =>
          rw [natDigitsGo, natDigitsGo_shift]
          have hq : (m + 1) / 10 < m + 1 := Nat.div_lt_self (Nat.succ_pos m) (by omega)
          have hr : (m + 1) % 10 < 10 := Nat.mod_lt _ (by omega)
          by_cases h0 : (m + 1) / 10 = 0
          · rw [h0]
            simp only [natDigitsGo, List.nil_append, List.foldl_cons, List.foldl_nil,
              List.length_cons, List.length_nil]
            rw [digitChar_toNat hr]
            have := Nat.div_add_mod (m + 1) 10
            simp only [zero_add, pow_one]
            omega
          · rw [List.foldl_append, ih ((m + 1) / 10) hq h0 w]
            simp only [List.foldl_cons, List.foldl_nil, List.length_append,
              List.length_cons, List.length_nil]
            rw [digitChar_toNat hr]
            have hdm := Nat.div_add_mod (m + 1) 10
            have hpow : 10 ^ ((natDigitsGo ((m + 1) / 10) []).length + 1) =
                10 ^ (natDigitsGo ((m + 1) / 10) []).length * 10 := pow_succ 10 _
            rw [hpow]
            ring_nf
            omega

/-- Parsing back the decimal rendering of a natural number. -/
theorem digitsToNat_natDigits (n : Nat) : digitsToNat (natDigits n) = n := by
  unfold natDigits digitsToNat
  split_ifs with h
  · subst h; decide
  · have := valFrom_natDigitsGo n h 0
    simpa using this

/-- Leading whitespace is invisible to skipWs. -/
theorem skipWs_append {sp : List Char} (u : List Char) (h : sp.all isJsonWs = true) :
    skipWs (sp ++ u) = skipWs u := by
  induction sp with
  | nil => rfl
  | cons c cs ih =>
      simp only [List.all_cons, Bool.and_eq_true] at h
      simp only [List.cons_append, skipWs, List.dropWhile_cons, h.1, if_true]
      exact ih h.2

/-- Leading whitespace is invisible to the value parser. -/
theorem parseVal_ws {sp : List Char} (u : List Char) (h : sp.all isJsonWs = true) :
    ∀ f, parseVal f (sp ++ u) = parseVal f u
  | 0 => rfl
  | f + 1 => by
      simp only [parseVal, skipWs_append u h]

/-- Leading whitespace is invisible to the items parser. -/
theorem parseItems_ws {sp : List Char} (u : List Char) (h : sp.all isJsonWs = true) :
    ∀ f, parseItems f (sp ++ u) = parseItems f u
  | 0 => rfl
  | f + 1 => by
      simp only [parseItems, parseVal_ws u h]

/-- Leading whitespace is invisible to the fields parser. -/
theorem parseFields_ws {sp : List Char} (u : List Char) (h : sp.all isJsonWs = true) :
    ∀ f, parseFields f (sp ++ u) = parseFields f u
  | 0 => rfl
  | f + 1 => by
      simp only [parseFields, skipWs_append u h]

/-- Reading the digit run of a decimal literal followed by a non-digit. -/
theorem takeWhile_digits {ds rest : List Char}
    (hds : ∀ c ∈ ds, c.isDigit = true)
    (hrest : ∀ c, rest.head? = some c → c.isDigit = false) :
    (ds ++ rest).takeWhile Char.isDigit = ds ∧
      (ds ++ rest).dropWhile Char.isDigit = rest := by
  induction ds with
  | nil =>
      cases rest with
      | nil => simp
      | cons c cs =>
          simp [List.takeWhile_cons, List.dropWhile_cons, hrest c rfl]
  | cons d ds ih =>
      have hd := hds d (by simp)
      obtain ⟨h1, h2⟩ := ih (fun c hc => hds c (by simp [hc]))
      simp [List.takeWhile_cons, List.dropWhile_cons, hd, h1, h2]

/-- Reading back an unescaped string literal body. -/
theorem parseStrChars_append {l : List Char} (rest : List Char)
    (h : ∀ c ∈ l, goodStrChar c = true) :
    parseStrChars (l ++ dquoteChar :: rest) = some (l, rest) := by
  induction l with
  | nil => simp [parseStrChars]
  | cons c cs ih =>
      have hc := h c (by simp)
      have hq : ¬ c = dquoteChar := by
        intro rfl2
        rw [rfl2] at hc
        revert hc
        decide
      have hb : ¬ c = backslashChar := by
        intro rfl2
        rw [rfl2] at hc
        revert hc
        decide
      simp only [List.cons_append, parseStrChars, hq, if_false, hb, List.append_eq,
        ih (fun d hd => h d (by simp [hd])), Option.map_some]
      rfl

/-- The serialization of any value is non-empty, starts with a non-whitespace
character, and that character is not a closing bracket. -/
theorem dumps_head (v : JVal) : ∃ c cs, dumpsJ v = c :: cs ∧
    isJsonWs c = false ∧ c ≠ rbrackChar := by
  cases v with
  | null => exact ⟨'n', _, rfl, by decide, by decide⟩
  | bool b => cases b with
      | true => exact ⟨'t', _, rfl, by decide, by decide⟩
      | false => exact ⟨'f', _, rfl, by decide, by decide⟩
  | num q =>
      show ∃ c cs, dumpInt q.num = c :: cs ∧ _
      unfold dumpInt
      split_ifs with hneg
      · exact ⟨'-', _, rfl, by decide, by decide⟩
      · rcases hnd : natDigits q.num.toNat with _ | ⟨c, cs⟩
        · exact absurd hnd (natDigits_ne_nil _)
        · have hc : c ∈ digitChars := natDigits_mem _ c (by rw [hnd]; simp)
          obtain ⟨-, hws, hrb, -⟩ := digitChars_facts c hc
          exact ⟨c, cs, rfl, hws, hrb⟩
  | str s => exact ⟨dquoteChar, _, rfl, by decide, by decide⟩
  | arr xs =>
      cases xs with
      | nil => exact ⟨lbrackChar, _, rfl, by decide, by decide⟩
      | cons x xs => exact ⟨lbrackChar, _, rfl, by decide, by decide⟩
  | obj fs =>
      cases fs with
      | nil => exact ⟨lbraceChar, _, rfl, by decide, by decide⟩
      | cons kv fs => exact ⟨lbraceChar, _, rfl, by decide, by decide⟩

/-- A non-whitespace head stops skipWs at once. -/
theorem skipWs_cons_of {c : Char} {r : List Char} (h : isJsonWs c = false) :
    skipWs (c :: r) = c :: r := by
  simp [skipWs, List.dropWhile_cons, h]

/-- All characters of natDigits are digits. -/
theorem natDigits_isDigitAll (n : Nat) : ∀ c ∈ natDigits n, c.isDigit = true :=
  fun c hc => (digitChars_facts c (natDigits_mem n c hc)).1

/-- An integral rational is the cast of its numerator. -/
theorem den_one_cast {q : ℚ} (hq : q.den = 1) : (q.num : ℚ) = q := by
  rw [← Rat.num_div_den q, hq]
  simp

/-- Reading back the decimal rendering of an integral rational. -/
theorem parseVal_dumps_num (q : ℚ) (hq : q.den = 1) (f : Nat) (rest : List Char)
    (hrest : ∀ c, rest.head? = some c → c.isDigit = false) :
    parseVal (f + 1) (dumpsJ (.num q) ++ rest) = some (.num q, rest) := by
  by_cases hneg : q.num < 0
  · have hd : dumpsJ (.num q) = '-' :: natDigits q.num.natAbs := by
      simp [dumpsJ, dumpInt, hneg]
    rw [hd]
    simp only [parseVal, List.cons_append]
    rw [skipWs_cons_of (by decide)]
    simp only [if_neg (show ¬('-' : Char) = 'n' by decide),
      if_neg (show ¬('-' : Char) = 't' by decide),
      if_neg (show ¬('-' : Char) = 'f' by decide),
      if_neg (show ¬('-' : Char) = dquoteChar by decide),
      if_neg (show ¬('-' : Char) = lbrackChar by decide),
      if_neg (show ¬('-' : Char) = lbraceChar by decide),
      if_pos (show ('-' : Char) = '-' from rfl)]
    unfold parseNumTail
    have hne : (natDigits q.num.natAbs).isEmpty = false := by
      rcases hnn : natDigits q.num.natAbs with _ | ⟨a, b⟩
      · exact absurd hnn (natDigits_ne_nil _)
      · rfl
    have htk := takeWhile_digits (natDigits_isDigitAll q.num.natAbs) hrest
    simp only [if_true, htk.1, htk.2, hne, Bool.false_eq_true, if_false,
      digitsToNat_natDigits, ite_true]
    have h2 : (q.num.natAbs : ℤ) = -q.num := by omega
    have hcast : -((q.num.natAbs : Nat) : ℚ) = q :=
      calc -((q.num.natAbs : Nat) : ℚ)
          = -(((q.num.natAbs : ℤ) : ℚ)) := by norm_cast
        _ = -((-q.num : ℤ) : ℚ) := by rw [h2]
        _ = (q.num : ℚ) := by push_cast; ring
        _ = q := den_one_cast hq
    rw [hcast]
  · push_neg at hneg
    have hd : dumpsJ (.num q) = natDigits q.num.toNat := by
      simp [dumpsJ, dumpInt, not_lt.mpr hneg]
    rcases hnd : natDigits q.num.toNat with _ | ⟨c, cs⟩
    · exact absurd hnd (natDigits_ne_nil _)
    · have hcmem : c ∈ digitChars := natDigits_mem _ c (by rw [hnd]; simp)
      obtain ⟨hdig, hws, hrb, hrb2, hn, ht, hf, hdq, hlb, hlc, hmin, -, -⟩ :=
        digitChars_facts c hcmem
      have hall : ∀ d ∈ c :: cs, d.isDigit = true := by
        rw [← hnd]; exact natDigits_isDigitAll _
      have htk := @takeWhile_digits (c :: cs) rest hall hrest
      rw [List.cons_append] at htk
      rw [hd, hnd]
      simp only [parseVal, List.cons_append]
      rw [skipWs_cons_of hws]
      simp only [if_neg hn, if_neg ht, if_neg hf, if_neg hdq, if_neg hlb,
        if_neg hlc, if_neg hmin, if_pos hdig]
      unfold parseNumTail
      simp only [htk.1, htk.2]
      have hde : digitsToNat (c :: cs) = q.num.toNat := by
        rw [← hnd, digitsToNat_natDigits]
      simp only [List.isEmpty_cons, Bool.false_eq_true, if_false, hde, ite_false]
      have hcast : ((q.num.toNat : Nat) : ℚ) = q :=
        calc ((q.num.toNat : Nat) : ℚ)
            = (((q.num.toNat : Nat) : ℤ) : ℚ) := by push_cast; ring
          _ = ((q.num : ℤ) : ℚ) := by rw [Int.toNat_of_nonneg hneg]
          _ = q := den_one_cast hq
      rw [hcast]

/-- Reading back the serialized items of a non-empty array. -/
theorem parseItems_dumps :
    ∀ (xs : List JVal) (x : JVal),
      wfJ x = true → wfItems xs = true →
      (∀ y ∈ x :: xs, wfJ y = true → ∀ f rest, rankJ y ≤ f →
        (∀ c, rest.head? = some c → c.isDigit = false) →
        parseVal f (dumpsJ y ++ rest) = some (y, rest)) →
      ∀ g rest, rankItems (x :: xs) ≤ g →
        parseItems g (dumpsJ x ++ (dumpsItems xs ++ rbrackChar :: rest)) =
          some (x :: xs, rest) := by
  intro xs
  induction xs with
  | nil =>
      intro x hwx _ ih g rest hg
      simp only [rankItems] at hg
      rcases g with _ | g
      · exact absurd hg (by omega)
      simp only [parseItems]
      have hpv := ih x (by simp) hwx g (rbrackChar :: rest)
        (by omega) (by intro c hc; simp at hc; subst hc; decide)
      simp only [dumpsItems, List.nil_append]
      rw [hpv]
      simp only [Option.bind_eq_bind, Option.some_bind]
      rw [skipWs_cons_of (by decide)]
      have hne : ¬ (rbrackChar = ',') := by decide
      simp [hne]
  | cons y ys ihy =>
      intro x hwx hwxs ih g rest hg
      simp only [rankItems] at hg
      rcases g with _ | g
      · exact absurd hg (by omega)
      simp only [parseItems]
      simp only [dumpsItems, List.cons_append, List.append_assoc]
      have hrest1 : ∀ c : Char,
          (',' :: ' ' :: (dumpsJ y ++ (dumpsItems ys ++ rbrackChar :: rest))).head? = some c →
            c.isDigit = false := by
        intro c hc
        simp at hc
        subst hc
        decide
      have hpv := ih x (by simp) hwx g
        (',' :: ' ' :: (dumpsJ y ++ (dumpsItems ys ++ rbrackChar :: rest)))
        (by omega) hrest1
      rw [hpv]
      simp only [Option.bind_eq_bind, Option.some_bind]
      rw [skipWs_cons_of (by decide)]
      simp only [if_pos (rfl : (',' : Char) = ','), if_true]
      rw [show (' ' :: (dumpsJ y ++ (dumpsItems ys ++ rbrackChar :: rest))) =
          [' '] ++ (dumpsJ y ++ (dumpsItems ys ++ rbrackChar :: rest)) from rfl]
      rw [parseItems_ws _ (by decide)]
      have hwfy : wfJ y = true := by
        simp only [wfItems, Bool.and_eq_true] at hwxs
        exact hwxs.1
      have hwfys : wfItems ys = true := by
        simp only [wfItems, Bool.and_eq_true] at hwxs
        exact hwxs.2
      rw [ihy y hwfy hwfys
        (fun z hz => ih z (List.mem_cons_of_mem x hz))
        g rest (by simp only [rankItems] at hg ⊢; omega)]
      rfl

/-- The character after a value inside an object is never a digit. -/
theorem dumpsFields_head (fs : List (String × JVal)) (rest : List Char) :
    ∀ c, (dumpsFields fs ++ rbraceChar :: rest).head? = some c → c.isDigit = false := by
  intro c hc
  cases fs with
  | nil =>
      simp only [dumpsFields, List.nil_append, List.head?_cons, Option.some.injEq] at hc
      subst hc
      decide
  | cons kv fs =>
      simp only [dumpsFields, List.cons_append, List.head?_cons, Option.some.injEq] at hc
      subst hc
      decide

/-- Reading back the serialized fields of a non-empty object. -/
theorem parseFields_dumps :
    ∀ (fs : List (String × JVal)) (k : String) (v : JVal),
      k.data.all goodStrChar = true → wfJ v = true → wfFields fs = true →
      (∀ y ∈ (k, v) :: fs, wfJ y.2 = true → ∀ f rest, rankJ y.2 ≤ f →
        (∀ c, rest.head? = some c → c.isDigit = false) →
        parseVal f (dumpsJ y.2 ++ rest) = some (y.2, rest)) →
      ∀ g rest, rankFields ((k, v) :: fs) ≤ g →
        parseFields g (dumpsField (k, v) ++ (dumpsFields fs ++ rbraceChar :: rest)) =
          some ((k, v) :: fs, rest) := by
  intro fs
  induction fs with
  | nil =>
      intro k v hk hwv _ ih g rest hg
      simp only [rankFields] at hg
      have hg2 : 1 + rankJ v + 0 ≤ g := by simpa using hg
      rcases g with _ | g
      · exact absurd hg2 (by omega)
      simp only [parseFields, dumpsField, dumpsFields, List.nil_append,
        List.cons_append, List.append_assoc]
      rw [skipWs_cons_of (by decide)]
      simp only [if_pos (rfl : dquoteChar = dquoteChar), if_true]
      rw [parseStrChars_append _ (by simpa [List.all_eq_true] using hk)]
      simp only [Option.bind_eq_bind, Option.some_bind]
      rw [skipWs_cons_of (by decide)]
      simp only [if_pos (rfl : (':' : Char) = ':'), if_true]
      rw [show (' ' :: (dumpsJ v ++ rbraceChar :: rest)) =
          [' '] ++ (dumpsJ v ++ rbraceChar :: rest) from rfl]
      rw [parseVal_ws _ (by decide)]
      rw [ih (k, v) (by simp) hwv g (rbraceChar :: rest) (by simpa using (by omega : rankJ v ≤ g))
        (by intro c hc; simp at hc; subst hc; decide)]
      simp only [Option.some_bind]
      rw [skipWs_cons_of (by decide)]
      have hne : ¬ (rbraceChar = ',') := by decide
      simp [hne]
  | cons kv2 fs ihf =>
      intro k v hk hwv hwfs ih g rest hg
      obtain ⟨k2, v2⟩ := kv2
      simp only [rankFields] at hg
      have hg2 : 1 + rankJ v + (1 + rankJ v2 + rankFields fs) ≤ g := by simpa using hg
      rcases g with _ | g
      · exact absurd hg2 (by omega)
      simp only [parseFields, dumpsField, dumpsFields, List.cons_append, List.append_assoc,
        List.nil_append]
      rw [skipWs_cons_of (by decide)]
      simp only [if_pos (rfl : dquoteChar = dquoteChar), if_true]
      rw [parseStrChars_append _ (by simpa [List.all_eq_true] using hk)]
      simp only [Option.bind_eq_bind, Option.some_bind]
      rw [skipWs_cons_of (by decide)]
      simp only [if_pos (rfl : (':' : Char) = ':'), if_true]
      rw [show (' ' :: (dumpsJ v ++ ',' :: ' ' :: dquoteChar :: (k2.data ++ dquoteChar :: ':' :: ' ' :: (dumpsJ v2 ++ (dumpsFields fs ++ rbraceChar :: rest))))) =
          [' '] ++ (dumpsJ v ++ ',' :: ' ' :: dquoteChar :: (k2.data ++ dquoteChar :: ':' :: ' ' :: (dumpsJ v2 ++ (dumpsFields fs ++ rbraceChar :: rest)))) from rfl]
      rw [parseVal_ws _ (by decide)]
      rw [ih (k, v) (by simp) hwv g _ (by simpa using (by omega : rankJ v ≤ g))
        (by intro c hc; simp at hc; subst hc; decide)]
      simp only [Option.some_bind]
      rw [skipWs_cons_of (by decide)]
      simp only [if_pos (rfl : (',' : Char) = ','), if_true]
      rw [show (' ' :: dquoteChar :: (k2.data ++ dquoteChar :: ':' :: ' ' :: (dumpsJ v2 ++ (dumpsFields fs ++ rbraceChar :: rest)))) =
          [' '] ++ (dquoteChar :: (k2.data ++ dquoteChar :: ':' :: ' ' :: (dumpsJ v2 ++ (dumpsFields fs ++ rbraceChar :: rest)))) from rfl]
      rw [parseFields_ws _ (by decide)]
      have hk2 : k2.data.all goodStrChar = true := by
        simp only [wfFields, Bool.and_eq_true] at hwfs
        exact hwfs.1.1
      have hv2 : wfJ v2 = true := by
        simp only [wfFields, Bool.and_eq_true] at hwfs
        exact hwfs.1.2
      have hfs : wfFields fs = true := by
        simp only [wfFields, Bool.and_eq_true] at hwfs
        exact hwfs.2
      have hrec := ihf k2 v2 hk2 hv2 hfs
        (fun z hz => ih z (List.mem_cons_of_mem _ hz))
        g rest (by simp only [rankFields]; simpa using (by omega : 1 + rankJ v2 + rankFields fs ≤ g))
      simp only [dumpsField, List.cons_append, List.append_assoc, List.nil_append] at hrec
      rw [hrec]
      rfl

/-- Round trip of one serialized well-formed value, with an arbitrary
non-digit-leading remainder. -/
theorem parseVal_dumps : ∀ (v : JVal), wfJ v = true → ∀ f rest, rankJ v ≤ f →
    (∀ c, rest.head? = some c → c.isDigit = false) →
    parseVal f (dumpsJ v ++ rest) = some (v, rest) := by
  intro v
  induction v using JVal.inductionOn with
  | hnull =>
      intro _ f rest hf hrest
      rcases f with _ | f
      · simp [rankJ] at hf
      rw [show dumpsJ JVal.null ++ rest = 'n' :: 'u' :: 'l' :: 'l' :: rest from rfl]
      simp only [parseVal]
      rw [skipWs_cons_of (by decide)]
      simp [expectChars, startsWithList]
  | hbool b =>
      intro _ f rest hf hrest
      rcases f with _ | f
      · simp [rankJ] at hf
      cases b
      · rw [show dumpsJ (JVal.bool false) ++ rest = 'f' :: 'a' :: 'l' :: 's' :: 'e' :: rest from rfl]
        simp only [parseVal]
        rw [skipWs_cons_of (by decide)]
        simp [expectChars, startsWithList]
      · rw [show dumpsJ (JVal.bool true) ++ rest = 't' :: 'r' :: 'u' :: 'e' :: rest from rfl]
        simp only [parseVal]
        rw [skipWs_cons_of (by decide)]
        simp [expectChars, startsWithList]
  | hnum q =>
      intro hwf f rest hf hrest
      rcases f with _ | f
      · simp [rankJ] at hf
      have hq : q.den = 1 := by simpa [wfJ] using hwf
      exact parseVal_dumps_num q hq f rest hrest
  | hstr s =>
      intro hwf f rest hf hrest
      rcases f with _ | f
      · simp [rankJ] at hf
      have harg : dumpsJ (JVal.str s) ++ rest =
          dquoteChar :: (s.data ++ dquoteChar :: rest) := by
        simp [dumpsJ]
      rw [harg]
      simp only [parseVal]
      rw [skipWs_cons_of (by decide)]
      simp only [if_neg (show ¬ dquoteChar = 'n' by decide),
        if_neg (show ¬ dquoteChar = 't' by decide),
        if_neg (show ¬ dquoteChar = 'f' by decide),
        if_pos (rfl : dquoteChar = dquoteChar), if_true]
      rw [parseStrChars_append _ (by simpa [wfJ, List.all_eq_true] using hwf)]
      rfl
  | harr xs ih =>
      intro hwf f rest hf hrest
      cases xs with
      | nil =>
          rcases f with _ | f
          · simp [rankJ, rankItems] at hf
          rw [show dumpsJ (JVal.arr []) ++ rest = lbrackChar :: rbrackChar :: rest from rfl]
          simp only [parseVal]
          rw [skipWs_cons_of (by decide)]
          simp only [if_neg (show ¬ lbrackChar = 'n' by decide),
            if_neg (show ¬ lbrackChar = 't' by decide),
            if_neg (show ¬ lbrackChar = 'f' by decide),
            if_neg (show ¬ lbrackChar = dquoteChar by decide),
            if_pos (rfl : lbrackChar = lbrackChar), if_true]
          rw [skipWs_cons_of (by decide)]
          simp only [if_pos (rfl : rbrackChar = rbrackChar), if_true]
      | cons x xs =>
          rcases f with _ | f
          · simp [rankJ, rankItems] at hf
          have harg : dumpsJ (JVal.arr (x :: xs)) ++ rest =
              lbrackChar :: (dumpsJ x ++ (dumpsItems xs ++ rbrackChar :: rest)) := by
            simp [dumpsJ, List.append_assoc]
          rw [harg]
          simp only [parseVal]
          rw [skipWs_cons_of (by decide)]
          simp only [if_neg (show ¬ lbrackChar = 'n' by decide),
            if_neg (show ¬ lbrackChar = 't' by decide),
            if_neg (show ¬ lbrackChar = 'f' by decide),
            if_neg (show ¬ lbrackChar = dquoteChar by decide),
            if_pos (rfl : lbrackChar = lbrackChar), if_true]
          obtain ⟨c0, cs0, hx0, hws0, hrb0⟩ := dumps_head x
          rw [show dumpsJ x ++ (dumpsItems xs ++ rbrackChar :: rest) =
              c0 :: (cs0 ++ (dumpsItems xs ++ rbrackChar :: rest)) from by rw [hx0]; rfl]
          rw [skipWs_cons_of hws0]
          simp only [if_neg hrb0, if_false]
          rw [show c0 :: (cs0 ++ (dumpsItems xs ++ rbrackChar :: rest)) =
              dumpsJ x ++ (dumpsItems xs ++ rbrackChar :: rest) from by rw [hx0]; rfl]
          have hwx : wfJ x = true := by
            simp only [wfJ, wfItems, Bool.and_eq_true] at hwf
            exact hwf.1
          have hwxs : wfItems xs = true := by
            simp only [wfJ, wfItems, Bool.and_eq_true] at hwf
            exact hwf.2
          rw [parseItems_dumps xs x hwx hwxs ih f rest
            (by simp only [rankJ] at hf; omega)]
          rfl
  | hobj fs ih =>
      intro hwf f rest hf hrest
      cases fs with
      | nil =>
          rcases f with _ | f
          · simp [rankJ, rankFields] at hf
          rw [show dumpsJ (JVal.obj []) ++ rest = lbraceChar :: rbraceChar :: rest from rfl]
          simp only [parseVal]
          rw [skipWs_cons_of (by decide)]
          simp only [if_neg (show ¬ lbraceChar = 'n' by decide),
            if_neg (show ¬ lbraceChar = 't' by decide),
            if_neg (show ¬ lbraceChar = 'f' by decide),
            if_neg (show ¬ lbraceChar = dquoteChar by decide),
            if_neg (show ¬ lbraceChar = lbrackChar by decide),
            if_pos (rfl : lbraceChar = lbraceChar), if_true]
          rw [skipWs_cons_of (by decide)]
          simp only [if_pos (rfl : rbraceChar = rbraceChar), if_true]
      | cons kv fs =>
          obtain ⟨k, v⟩ := kv
          rcases f with _ | f
          · simp [rankJ, rankFields] at hf
          have harg : dumpsJ (JVal.obj ((k, v) :: fs)) ++ rest =
              lbraceChar :: (dumpsField (k, v) ++ (dumpsFields fs ++ rbraceChar :: rest)) := by
            simp [dumpsJ, List.append_assoc]
          rw [harg]
          simp only [parseVal]
          rw [skipWs_cons_of (by decide)]
          simp only [if_neg (show ¬ lbraceChar = 'n' by decide),
            if_neg (show ¬ lbraceChar = 't' by decide),
            if_neg (show ¬ lbraceChar = 'f' by decide),
            if_neg (show ¬ lbraceChar = dquoteChar by decide),
            if_neg (show ¬ lbraceChar = lbrackChar by decide),
            if_pos (rfl : lbraceChar = lbraceChar), if_true]
          rw [show dumpsField (k, v) ++ (dumpsFields fs ++ rbraceChar :: rest) =
              dquoteChar :: (k.data ++ (dquoteChar :: ':' :: ' ' ::
                (dumpsJ v ++ (dumpsFields fs ++ rbraceChar :: rest)))) from by
            simp [dumpsField, List.append_assoc]]
          rw [skipWs_cons_of (by decide)]
          simp only [if_neg (show ¬ dquoteChar = rbraceChar by decide), if_false]
          rw [show dquoteChar :: (k.data ++ (dquoteChar :: ':' :: ' ' ::
                (dumpsJ v ++ (dumpsFields fs ++ rbraceChar :: rest)))) =
              dumpsField (k, v) ++ (dumpsFields fs ++ rbraceChar :: rest) from by
            simp [dumpsField, List.append_assoc]]
          have hk : k.data.all goodStrChar = true := by
            simp only [wfJ, wfFields, Bool.and_eq_true] at hwf
            exact hwf.1.1
          have hv : wfJ v = true := by
            simp only [wfJ, wfFields, Bool.and_eq_true] at hwf
            exact hwf.1.2
          have hfs : wfFields fs = true := by
            simp only [wfJ, wfFields, Bool.and_eq_true] at hwf
            exact hwf.2
          rw [parseFields_dumps fs k v hk hv hfs
            (fun y hy => ih y hy) f rest
            (by simp only [rankJ] at hf; omega)]
          rfl

/-- The parser fuel needed for array items is bounded by their serialized
length. -/
theorem rankItems_le (xs : List JVal) : ∀ (x : JVal),
    rankJ x ≤ (dumpsJ x).length + 1 →
    (∀ y ∈ xs, rankJ y ≤ (dumpsJ y).length + 1) →
    rankItems (x :: xs) ≤ (dumpsJ x ++ dumpsItems xs).length + 2 := by
  induction xs with
  | nil =>
      intro x ihx _
      simp only [rankItems, dumpsItems, List.append_nil]
      omega
  | cons y ys ihy =>
      intro x ihx ih
      have h1 := ihy y (ih y (by simp)) (fun z hz => ih z (List.mem_cons_of_mem _ hz))
      simp only [rankItems, dumpsItems, List.length_append, List.length_cons] at h1 ⊢
      omega

/-- The parser fuel needed for object fields is bounded by their serialized
length. -/
theorem rankFields_le (fs : List (String × JVal)) : ∀ (kv : String × JVal),
    rankJ kv.2 ≤ (dumpsJ kv.2).length + 1 →
    (∀ lw ∈ fs, rankJ lw.2 ≤ (dumpsJ lw.2).length + 1) →
    rankFields (kv :: fs) ≤ (dumpsField kv ++ dumpsFields fs).length + 2 := by
  induction fs with
  | nil =>
      intro kv ihx _
      obtain ⟨k, v⟩ := kv
      simp only [rankFields, dumpsFields, dumpsField, List.append_nil,
        List.length_append, List.length_cons] at ihx ⊢
      omega
  | cons lw ls ihl =>
      intro kv ihx ih
      obtain ⟨k, v⟩ := kv
      have h1 := ihl lw (ih lw (by simp)) (fun z hz => ih z (List.mem_cons_of_mem _ hz))
      simp only [rankFields, dumpsFields, dumpsField, List.length_append,
        List.length_cons] at h1 ihx ⊢
      omega

/-- The parser fuel needed for a value is bounded by its serialized length. -/
theorem rankJ_le_len (v : JVal) : rankJ v ≤ (dumpsJ v).length + 1 := by
  induction v using JVal.inductionOn with
  | hnull => simp [rankJ, dumpsJ]
  | hbool b => cases b <;> simp [rankJ, dumpsJ]
  | hnum q => simp [rankJ]
  | hstr s => simp [rankJ]
  | harr xs ih =>
      cases xs with
      | nil => simp [rankJ, rankItems, dumpsJ]
      | cons x xs =>
          have h1 := rankItems_le xs x (ih x (by simp))
            (fun z hz => ih z (List.mem_cons_of_mem _ hz))
          simp only [rankJ, dumpsJ, List.length_cons, List.length_append,
            List.length_cons, List.length_nil] at h1 ⊢
          omega
  | hobj fs ih =>
      cases fs with
      | nil => simp [rankJ, rankFields, dumpsJ]
      | cons kv fs =>
          have h1 := rankFields_le fs kv (ih kv (by simp))
            (fun z hz => ih z (List.mem_cons_of_mem _ hz))
          simp only [rankJ, dumpsJ, List.length_cons, List.length_append,
            List.length_nil] at h1 ⊢
          omega

/-- json.loads inverts json.dumps on well-formed documents. -/
theorem loads_dumps (v : JVal) (h : wfJ v = true) : loads (dumpsJ v) = .ok v := by
  unfold loads
  have hp := parseVal_dumps v h ((dumpsJ v).length + 1) []
    (le_trans (rankJ_le_len v) (by omega)) (by intro c hc; simp at hc)
  rw [show dumpsJ v ++ ([] : List Char) = dumpsJ v from by simp] at hp
  rw [hp]
  simp [skipWs]

/-- A pattern starts any text that begins with it. -/
theorem startsWith_append_self (pat r : List Char) :
    startsWithList pat (pat ++ r) = true := by
  induction pat with
  | nil => rfl
  | cons p ps ih => simp [startsWithList, ih]

/-- A matched text begins with the head of the pattern. -/
theorem startsWith_head {p : Char} {ps t : List Char}
    (h : startsWithList (p :: ps) t = true) : ∃ u, t = p :: u := by
  cases t with
  | nil => simp [startsWithList] at h
  | cons c cs =>
      simp only [startsWithList, Bool.and_eq_true, beq_iff_eq] at h
      exact ⟨cs, by rw [h.1]⟩

/-- Search offsets merely shift the reported index. -/
theorem firstOccAux_shift (pat : List Char) :
    ∀ (s : List Char) (i : Nat),
      firstOccAux pat s i = (firstOccAux pat s 0).map (· + i) := by
  intro s
  induction s with
  | nil =>
      intro i
      simp only [firstOccAux]
      split_ifs <;> simp
  | cons c cs ih =>
      intro i
      simp only [firstOccAux]
      split_ifs with h
      · simp
      · rw [ih (i + 1), ih 1]
        cases firstOccAux pat cs 0 <;> simp
        omega

/-- One unfolding step of firstOcc. -/
theorem firstOcc_cons (pat : List Char) (c : Char) (s : List Char) :
    firstOcc pat (c :: s) =
      if startsWithList pat (c :: s) then some 0
      else (firstOcc pat s).map (· + 1) := by
  unfold firstOcc
  simp only [firstOccAux]
  split_ifs with h
  · rfl
  · exact firstOccAux_shift pat s 1

/-- Searching past a clean leading segment: when the pattern head does not
occur in the leading segment, every occurrence lies in the remainder. -/
theorem firstOcc_append_left {p : Char} {ps : List Char} :
    ∀ (pre rest : List Char), p ∉ pre →
      firstOcc (p :: ps) (pre ++ rest) =
        (firstOcc (p :: ps) rest).map (· + pre.length) := by
  intro pre
  induction pre with
  | nil =>
      intro rest _
      simp only [List.nil_append]
      cases firstOcc (p :: ps) rest <;> simp
  | cons a pre ih =>
      intro rest hp
      rw [List.cons_append, firstOcc_cons]
      have hsw : startsWithList (p :: ps) (a :: (pre ++ rest)) = false := by
        by_contra hcon
        rw [Bool.not_eq_false] at hcon
        obtain ⟨u, hu⟩ := startsWith_head hcon
        simp only [List.cons.injEq] at hu
        exact hp (by simp [← hu.1])
      rw [hsw, if_neg (by simp)]
      rw [ih rest (fun hmem => hp (List.mem_cons_of_mem a hmem))]
      cases firstOcc (p :: ps) rest <;> simp
      omega

/-- dropWhile distributes over an append whose right part starts with a
character failing the predicate. -/
theorem dropWhile_append_stop (p : Char → Bool) (l : List Char) :
    ∀ (m : List Char), (∀ c, m.head? = some c → p c = false) →
      (l ++ m).dropWhile p = l.dropWhile p ++ m := by
  induction l with
  | nil =>
      intro m hm
      cases m with
      | nil => rfl
      | cons c cs =>
          simp [List.dropWhile_cons, hm c rfl]
  | cons a l ih =>
      intro m hm
      simp only [List.cons_append, List.dropWhile_cons]
      split_ifs with hp
      · exact ih m hm
      · rfl

/-- Stripping a text whose middle is delimited by non-whitespace touches only
the outer prose. -/
theorem pyStrip_sandwich (pre mid post : List Char)
    (h1 : ∀ c, (mid ++ post).head? = some c → isPySpace c = false)
    (h2 : ∀ c, (mid.reverse ++ (pre.dropWhile isPySpace).reverse).head? = some c →
      isPySpace c = false) :
    pyStrip (pre ++ (mid ++ post)) =
      pre.dropWhile isPySpace ++ (mid ++ (post.reverse.dropWhile isPySpace).reverse) := by
  unfold pyStrip
  rw [dropWhile_append_stop _ pre _ h1]
  rw [show (pre.dropWhile isPySpace ++ (mid ++ post)).reverse =
      post.reverse ++ (mid.reverse ++ (pre.dropWhile isPySpace).reverse) from by
    simp [List.reverse_append]]
  rw [dropWhile_append_stop _ post.reverse _ h2]
  simp [List.reverse_append]

/-- The first occurrence of a pattern in a text it starts is at zero. -/
theorem firstOcc_of_self {pat : List Char} (r : List Char) (h : pat ≠ []) :
    firstOcc pat (pat ++ r) = some 0 := by
  rcases pat with _ | ⟨p, ps⟩
  · exact absurd rfl h
  · rw [List.cons_append, firstOcc_cons]
    rw [if_pos (by rw [← List.cons_append]; exact startsWith_append_self _ _)]

/-- splitList never returns an empty list of pieces. -/
theorem splitList_ne_nil (sep s : List Char) : splitList sep s ≠ [] := by
  rw [splitList]
  split_ifs with h
  · simp
  · rcases hocc : firstOcc sep s with _ | i <;> simp [hocc]

/-- One unfolding of splitList at a known first occurrence. -/
theorem splitList_of_firstOcc {sep s : List Char} {i : Nat}
    (hsep : sep.length ≠ 0) (hocc : firstOcc sep s = some i) :
    splitList sep s = s.take i :: splitList sep (s.drop (i + sep.length)) := by
  rw [splitList]
  rw [dif_neg hsep]
  split
  · rename_i heq
    rw [hocc] at heq
    cases heq
  · rename_i j heq
    rw [hocc] at heq
    cases heq
    rfl

/-- One unfolding of splitList when the separator does not occur. -/
theorem splitList_of_none {sep s : List Char}
    (hocc : firstOcc sep s = none) : splitList sep s = [s] := by
  rw [splitList]
  split_ifs with h
  · rfl
  · split
    · rfl
    · rename_i j heq
      rw [hocc] at heq
      cases heq

/-- Fuel-indexed character containment for split pieces. -/
theorem splitList_chars_fuel (sep : List Char) :
    ∀ (n : Nat) (s : List Char), s.length ≤ n →
      ∀ piece ∈ splitList sep s, ∀ c ∈ piece, c ∈ s := by
  intro n
  induction n with
  | zero =>
      intro s hs piece hp c hc
      have hs0 : s = [] := List.eq_nil_of_length_eq_zero (by omega)
      subst hs0
      by_cases hsep : sep.length = 0
      · rw [splitList, dif_pos hsep] at hp
        simp only [List.mem_singleton] at hp
        subst hp
        exact hc
      · have hocc : firstOcc sep ([] : List Char) = none := by
          rcases sep with _ | ⟨p, ps⟩
          · simp at hsep
          · rfl
        rw [splitList_of_none hocc] at hp
        simp only [List.mem_singleton] at hp
        subst hp
        exact hc
  | succ n ih =>
      intro s hs piece hp c hc
      by_cases hsep : sep.length = 0
      · rw [splitList, dif_pos hsep] at hp
        simp only [List.mem_singleton] at hp
        subst hp
        exact hc
      · rcases hocc : firstOcc sep s with _ | i
        · rw [splitList_of_none hocc] at hp
          simp only [List.mem_singleton] at hp
          subst hp
          exact hc
        · rw [splitList_of_firstOcc hsep hocc] at hp
          rcases List.mem_cons.mp hp with rfl | hp2
          · exact (List.take_sublist i s).subset hc
          · have hlen : (s.drop (i + sep.length)).length ≤ n := by
              have h2 := firstOcc_le hocc
              simp only [List.length_drop]
              omega
            exact (List.drop_sublist _ _).subset (ih _ hlen piece hp2 c hc)

/-- Characters of every split piece come from the original text. -/
theorem splitList_chars (sep s : List Char) :
    ∀ piece ∈ splitList sep s, ∀ c ∈ piece, c ∈ s :=
  splitList_chars_fuel sep s.length s (le_refl _)

/-- Python find of an absent character is minus one. -/
theorem pyFind_of_notMem {c : Char} {s : List Char} (h : c ∉ s) :
    pyFind c s = -1 := by
  rcases hocc : firstOcc [c] s with _ | j
  · simp [pyFind, hocc]
  · exfalso
    obtain ⟨u, hu⟩ := startsWith_head (firstOcc_spec hocc).1
    exact h ((List.drop_sublist j s).subset (by rw [hu]; simp))

/-- Python rfind of an absent character is minus one. -/
theorem pyRfind_of_notMem {c : Char} {s : List Char} (h : c ∉ s) :
    pyRfind c s = -1 := by
  rcases hocc : firstOcc [c] s.reverse with _ | j
  · simp [pyRfind, hocc]
  · exfalso
    obtain ⟨u, hu⟩ := startsWith_head (firstOcc_spec hocc).1
    refine h ?_
    rw [← List.mem_reverse]
    exact (List.drop_sublist j s.reverse).subset (by rw [hu]; simp)

/-- Python find when the text starts with the sought character. -/
theorem pyFind_cons_self (c : Char) (u : List Char) : pyFind c (c :: u) = 0 := by
  simp [pyFind, firstOcc_cons, startsWithList]

/-- Python rfind when the sought character closes the text before a clean
tail. -/
theorem pyRfind_last {c : Char} {T : List Char} (u : List Char) (hT : c ∉ T) :
    pyRfind c (u ++ c :: T) = (u.length : Int) := by
  unfold pyRfind
  have hrev : (u ++ c :: T).reverse = T.reverse ++ (c :: u.reverse) := by
    simp
  rw [hrev]
  rw [firstOcc_append_left T.reverse (c :: u.reverse) (by simpa using hT)]
  rw [firstOcc_cons, if_pos (by simp [startsWithList])]
  simp
  omega

/-- A Python slice ending at zero is empty. -/
theorem pySlice_to_zero (s : List Char) (i : Int) : pySlice s i 0 = [] := by
  unfold pySlice pySliceIdx
  simp

/-- A Python slice from zero up to a valid bound is take. -/
theorem pySlice_take (s : List Char) (n : Nat) (hn : n ≤ s.length) :
    pySlice s 0 (n : Int) = s.take n := by
  unfold pySlice pySliceIdx
  simp only [if_neg (by omega : ¬ (0 : Int) < 0),
    if_neg (by omega : ¬ (n : Int) < 0)]
  simp [Int.toNat_natCast, min_eq_left hn]

/-- Bind on a successful Except just applies the continuation. -/
theorem except_bind_ok {E A B : Type} (a : A) (f : A → Except E B) :
    (Except.ok a >>= f) = f a := rfl

/-- The array-mode fence narrowing always succeeds and only keeps characters
of the raw text. -/
theorem arrayCleaned_ok (raw : List Char) :
    ∃ cleaned, arrayCleaned raw = .ok cleaned ∧ ∀ c ∈ cleaned, c ∈ raw := by
  unfold arrayCleaned
  by_cases hc : containsSub (pyStrip raw) fenceMarkerJson = true
  · rw [if_pos hc]
    unfold containsSub at hc
    rcases hocc : firstOcc fenceMarkerJson (pyStrip raw) with _ | i
    · rw [hocc] at hc; simp at hc
    · rw [splitList_of_firstOcc (by decide) hocc]
      rcases hsp : splitList fenceMarkerJson
          ((pyStrip raw).drop (i + fenceMarkerJson.length)) with _ | ⟨b, l1⟩
      · exact absurd hsp (splitList_ne_nil _ _)
      · rcases hsp2 : splitList fenceMarker b with _ | ⟨b2, l2⟩
        · exact absurd hsp2 (splitList_ne_nil _ _)
        · refine ⟨b2, ?_, ?_⟩
          · simp [pyIndexList, hsp, hsp2, except_bind_ok]
          · intro c hcmem
            have h1 : c ∈ b := splitList_chars fenceMarker b b2
              (by rw [hsp2]; simp) c hcmem
            have h2 : c ∈ (pyStrip raw).drop (i + fenceMarkerJson.length) :=
              splitList_chars _ _ b (by rw [hsp]; simp) c h1
            exact mem_pyStrip ((List.drop_sublist _ _).subset h2)
  · rw [if_neg hc]
    exact ⟨pyStrip raw, rfl, fun c hc2 => mem_pyStrip hc2⟩

/-- The object-mode fence narrowing always succeeds and only keeps characters
of the raw text. -/
theorem objectCleaned_ok (raw : List Char) :
    ∃ cleaned, objectCleaned raw = .ok cleaned ∧ ∀ c ∈ cleaned, c ∈ raw := by
  unfold objectCleaned
  by_cases hc : containsSub (pyStrip raw) fenceMarkerJson = true
  · rw [if_pos hc]
    unfold containsSub at hc
    rcases hocc : firstOcc fenceMarkerJson (pyStrip raw) with _ | i
    · rw [hocc] at hc; simp at hc
    · rw [splitList_of_firstOcc (by decide) hocc]
      rcases hsp : splitList fenceMarkerJson
          ((pyStrip raw).drop (i + fenceMarkerJson.length)) with _ | ⟨b, l1⟩
      · exact absurd hsp (splitList_ne_nil _ _)
      · rcases hsp2 : splitList fenceMarker b with _ | ⟨b2, l2⟩
        · exact absurd hsp2 (splitList_ne_nil _ _)
        · refine ⟨b2, ?_, ?_⟩
          · simp [pyIndexList, hsp, hsp2, except_bind_ok]
          · intro c hcmem
            have h1 : c ∈ b := splitList_chars fenceMarker b b2
              (by rw [hsp2]; simp) c hcmem
            have h2 : c ∈ (pyStrip raw).drop (i + fenceMarkerJson.length) :=
              splitList_chars _ _ b (by rw [hsp]; simp) c h1
            exact mem_pyStrip ((List.drop_sublist _ _).subset h2)
  · rw [if_neg hc]
    by_cases hc2 : containsSub (pyStrip raw) fenceMarker = true
    · rw [if_pos hc2]
      unfold containsSub at hc2
      rcases hocc : firstOcc fenceMarker (pyStrip raw) with _ | i
      · rw [hocc] at hc2; simp at hc2
      · rw [splitList_of_firstOcc (by decide) hocc]
        rcases hsp : splitList fenceMarker
            ((pyStrip raw).drop (i + fenceMarker.length)) with _ | ⟨b, l1⟩
        · exact absurd hsp (splitList_ne_nil _ _)
        · rcases hsp2 : splitList fenceMarker b with _ | ⟨b2, l2⟩
          · exact absurd hsp2 (splitList_ne_nil _ _)
          · refine ⟨b2, ?_, ?_⟩
            · simp [pyIndexList, hsp, hsp2, except_bind_ok]
            · intro c hcmem
              have h1 : c ∈ b := splitList_chars fenceMarker b b2
                (by rw [hsp2]; simp) c hcmem
              have h2 : c ∈ (pyStrip raw).drop (i + fenceMarker.length) :=
                splitList_chars _ _ b (by rw [hsp]; simp) c h1
              exact mem_pyStrip ((List.drop_sublist _ _).subset h2)
    · rw [if_neg hc2]
      exact ⟨pyStrip raw, rfl, fun c hc3 => mem_pyStrip hc3⟩

/-- The Python slice the array extractor computes when find returned -1:
either the last character alone, or nothing. -/
theorem slice_neg_one_cases (s : List Char) (jr : Nat) (hjr : jr < s.length) :
    pySlice s (-1) ((s.length : Int) - 1 - jr + 1) =
      if jr = 0 then s.drop (s.length - 1) else [] := by
  unfold pySlice pySliceIdx
  rw [if_pos (by norm_num : (-1 : Int) < 0)]
  rw [if_neg (by omega : ¬ ((s.length : Int) - 1 - jr + 1 < 0))]
  have h3 : ((s.length : Int) + (-1)).toNat = s.length - 1 := by omega
  have h4 : ((s.length : Int) - 1 - jr + 1).toNat = s.length - jr := by omega
  rw [h3, h4]
  by_cases hjr0 : jr = 0
  · subst hjr0
    rw [if_pos rfl]
    have : min (s.length - 0) s.length = s.length := by omega
    rw [this, List.take_length]
  · rw [if_neg hjr0]
    apply List.drop_eq_nil_of_le
    simp only [List.length_take]
    omega

/-- Array-mode extraction fails on text without a bracket pair. -/
theorem extractJsonArray_fails (raw : List Char)
    (h : lbrackChar ∉ raw ∨ rbrackChar ∉ raw) :
    extractJsonArray raw = .error .valueError := by
  obtain ⟨cleaned, hcl, hsub⟩ := arrayCleaned_ok raw
  unfold extractJsonArray
  rw [hcl, except_bind_ok]
  rcases h with h | h
  · have hlb : lbrackChar ∉ cleaned := fun hm => h (hsub _ hm)
    rw [pyFind_of_notMem hlb]
    rcases hocc : firstOcc [rbrackChar] cleaned.reverse with _ | jr
    · have hrf : pyRfind rbrackChar cleaned = -1 := by simp [pyRfind, hocc]
      rw [hrf]
      show loads (pySlice cleaned (-1) (-1 + 1)) = Except.error PyErr.valueError
      rw [show (-1 + 1 : Int) = 0 from by norm_num, pySlice_to_zero]
      decide
    · have hrf : pyRfind rbrackChar cleaned = (cleaned.length : Int) - 1 - jr := by
        simp [pyRfind, hocc]
      rw [hrf]
      show loads (pySlice cleaned (-1) ((cleaned.length : Int) - 1 - jr + 1)) =
        Except.error PyErr.valueError
      obtain ⟨u, hu⟩ := startsWith_head (firstOcc_spec hocc).1
      have hjr_lt : jr < cleaned.length := by
        have h2 := firstOcc_le hocc
        simp only [List.length_cons, List.length_nil, List.length_reverse] at h2
        omega
      rw [slice_neg_one_cases cleaned jr hjr_lt]
      by_cases hjr0 : jr = 0
      · subst hjr0
        rw [if_pos rfl]
        simp only [List.drop_zero] at hu
        have hcleq : cleaned = u.reverse ++ [rbrackChar] := by
          have h3 := congrArg List.reverse hu
          simpa using h3
        rw [hcleq]
        have hlen : (u.reverse ++ [rbrackChar]).length - 1 = u.reverse.length := by
          simp
        rw [hlen, List.drop_left]
        decide
      · rw [if_neg hjr0]
        decide
  · have hrb : rbrackChar ∉ cleaned := fun hm => h (hsub _ hm)
    rw [pyRfind_of_notMem hrb]
    show loads (pySlice cleaned (pyFind lbrackChar cleaned) (-1 + 1)) =
      Except.error PyErr.valueError
    rw [show (-1 + 1 : Int) = 0 from by norm_num, pySlice_to_zero]
    decide

/-- Object-mode extraction fails on text without a brace pair. -/
theorem extractJsonObject_fails (raw : List Char)
    (h : lbraceChar ∉ raw ∨ rbraceChar ∉ raw) :
    extractJsonObject raw = .error .valueError := by
  obtain ⟨cleaned, hcl, hsub⟩ := objectCleaned_ok raw
  unfold extractJsonObject
  rw [hcl, except_bind_ok]
  rcases h with h | h
  · rw [pyFind_of_notMem (fun hm => h (hsub _ hm))]
    rw [if_pos (Or.inl rfl)]
  · rw [pyRfind_of_notMem (fun hm => h (hsub _ hm))]
    rw [if_pos (Or.inr (by norm_num))]

theorem firstOcc_short {pat s : List Char} (hs : s.length < pat.length) :
    firstOcc pat s = none := by
  rcases hocc : firstOcc pat s with _ | j
  · rfl
  · have := firstOcc_le hocc
    omega

theorem dumps_obj_shape (fs : List (String × JVal)) :
    ∃ body, dumpsJ (JVal.obj fs) = lbraceChar :: body ++ [rbraceChar] := by
  cases fs with
  | nil => exact ⟨[], rfl⟩
  | cons kv fs => exact ⟨dumpsField kv ++ dumpsFields fs, rfl⟩

theorem extract_brace_stage (fs : List (String × JVal)) (T : List Char)
    (hwf : wfJ (JVal.obj fs) = true) (hT : ∀ c ∈ T, c = backtickChar) :
    (if pyFind lbraceChar (dumpsJ (JVal.obj fs) ++ T) = -1 ∨
        pyRfind rbraceChar (dumpsJ (JVal.obj fs) ++ T) + 1 = 0 then
      (Except.error PyErr.valueError : Except PyErr JVal)
    else loads (pySlice (dumpsJ (JVal.obj fs) ++ T)
      (pyFind lbraceChar (dumpsJ (JVal.obj fs) ++ T))
      (pyRfind rbraceChar (dumpsJ (JVal.obj fs) ++ T) + 1))) = .ok (JVal.obj fs) := by
  obtain ⟨body, hshape⟩ := dumps_obj_shape fs
  have hgroup : dumpsJ (JVal.obj fs) ++ T = (lbraceChar :: body) ++ rbraceChar :: T := by
    rw [hshape]
    simp
  have hjs : pyFind lbraceChar (dumpsJ (JVal.obj fs) ++ T) = 0 := by
    rw [hshape]
    rw [show (lbraceChar :: body ++ [rbraceChar]) ++ T =
        lbraceChar :: (body ++ [rbraceChar] ++ T) from by simp]
    exact pyFind_cons_self _ _
  have hje : pyRfind rbraceChar (dumpsJ (JVal.obj fs) ++ T) =
      ((lbraceChar :: body).length : Int) := by
    rw [hgroup]
    exact pyRfind_last _ (by intro hm; exact absurd (hT _ hm) (by decide))
  rw [hjs, hje]
  rw [if_neg (by
    rintro (hcon | hcon)
    · exact absurd hcon (by norm_num)
    · omega)]
  have hlen : ((lbraceChar :: body).length : Int) + 1 =
      (((dumpsJ (JVal.obj fs)).length : Nat) : Int) := by
    rw [hshape]
    simp
  rw [hlen]
  rw [pySlice_take _ _ (by simp)]
  rw [List.take_left]
  exact loads_dumps _ hwf


theorem take_app (a b : List Char) (n : Nat) :
    (a ++ b).take (a.length + n) = a ++ b.take n := by
  rw [List.take_append_eq_append_take]
  congr 1
  · apply List.take_of_length_le
    omega
  · congr 1
    omega

theorem objectCleaned_wrapped (dD pre post : List Char)
    (hpre : backtickChar ∉ pre) (hbt : backtickChar ∉ dD) :
    ∃ T, objectCleaned
        (pre ++ (fenceMarkerJson ++ (dD ++ (fenceMarker ++ post)))) =
      .ok (dD ++ T) ∧ ∀ c ∈ T, c = backtickChar := by
  set pre2 := pre.dropWhile isPySpace with hpre2def
  set post2 := (post.reverse.dropWhile isPySpace).reverse with hpost2def
  have hpre2 : backtickChar ∉ pre2 := fun hm => hpre ((List.dropWhile_sublist _).subset hm)
  -- strip the raw text
  have hstrip : pyStrip (pre ++ (fenceMarkerJson ++ (dD ++ (fenceMarker ++ post)))) =
      pre2 ++ (fenceMarkerJson ++ (dD ++ (fenceMarker ++ post2))) := by
    have hassoc : fenceMarkerJson ++ (dD ++ (fenceMarker ++ post)) =
        (fenceMarkerJson ++ (dD ++ fenceMarker)) ++ post := by
      simp [List.append_assoc]
    rw [hassoc]
    rw [pyStrip_sandwich pre (fenceMarkerJson ++ (dD ++ fenceMarker)) post ?_ ?_]
    · simp [List.append_assoc]
    · intro c hc
      rw [show ((fenceMarkerJson ++ (dD ++ fenceMarker)) ++ post).head? =
          some backtickChar from rfl] at hc
      simp only [Option.some.injEq] at hc
      subst hc
      decide
    · intro c hc
      rw [show (fenceMarkerJson ++ (dD ++ fenceMarker)).reverse =
          backtickChar :: backtickChar :: backtickChar ::
            (dD.reverse ++ fenceMarkerJson.reverse) from by
        simp [fenceMarker, List.reverse_append]] at hc
      simp only [List.cons_append, List.head?_cons, Option.some.injEq] at hc
      subst hc
      decide
  -- first occurrence of the json fence marker
  have hfo : firstOcc fenceMarkerJson
      (pre2 ++ (fenceMarkerJson ++ (dD ++ (fenceMarker ++ post2)))) =
      some pre2.length := by
    rw [show fenceMarkerJson = backtickChar ::
        ([backtickChar, backtickChar, 'j', 's', 'o', 'n'] : List Char) from rfl]
    rw [firstOcc_append_left pre2 _ hpre2]
    rw [firstOcc_of_self _ (by simp)]
    simp
  have hcontains : containsSub
      (pre2 ++ (fenceMarkerJson ++ (dD ++ (fenceMarker ++ post2))))
      fenceMarkerJson = true := by
    simp [containsSub, hfo]
  have htake : (pre2 ++ (fenceMarkerJson ++ (dD ++ (fenceMarker ++ post2)))).take
      pre2.length = pre2 := List.take_left pre2 _
  have hdrop : (pre2 ++ (fenceMarkerJson ++ (dD ++ (fenceMarker ++ post2)))).drop
      (pre2.length + fenceMarkerJson.length) = dD ++ (fenceMarker ++ post2) := by
    rw [show pre2 ++ (fenceMarkerJson ++ (dD ++ (fenceMarker ++ post2))) =
        (pre2 ++ fenceMarkerJson) ++ (dD ++ (fenceMarker ++ post2)) from by
      simp [List.append_assoc]]
    rw [show pre2.length + fenceMarkerJson.length = (pre2 ++ fenceMarkerJson).length from by
      simp]
    exact List.drop_left _ _
  -- analyse the tail after the json marker
  have hbtM : backtickChar ∉ pre2 := hpre2
  have hmapB : firstOcc fenceMarkerJson (dD ++ (fenceMarker ++ post2)) =
      (firstOcc fenceMarkerJson (fenceMarker ++ post2)).map (· + dD.length) := by
    rw [show fenceMarkerJson = backtickChar ::
        ([backtickChar, backtickChar, 'j', 's', 'o', 'n'] : List Char) from rfl]
    exact firstOcc_append_left dD _ hbt
  unfold objectCleaned
  rw [hstrip, if_pos hcontains]
  rw [splitList_of_firstOcc (by decide) hfo, htake, hdrop]
  rcases hoccB : firstOcc fenceMarkerJson (fenceMarker ++ post2) with _ | j'
  · -- no further json marker: the piece is the whole tail
    have hnone : firstOcc fenceMarkerJson (dD ++ (fenceMarker ++ post2)) = none := by
      rw [hmapB, hoccB]
      rfl
    rw [splitList_of_none hnone]
    have hfo3 : firstOcc fenceMarker (dD ++ (fenceMarker ++ post2)) =
        some dD.length := by
      rw [show fenceMarker = backtickChar ::
          ([backtickChar, backtickChar] : List Char) from rfl]
      rw [firstOcc_append_left dD _ hbt]
      rw [firstOcc_of_self _ (by simp)]
      simp
    rw [show (pyIndexList [pre2, dD ++ (fenceMarker ++ post2)] 1 :
        Except PyErr (List Char)) = .ok (dD ++ (fenceMarker ++ post2)) from rfl,
      except_bind_ok]
    rw [splitList_of_firstOcc (by decide) hfo3]
    refine ⟨[], ?_, by simp⟩
    simp [pyIndexList, List.take_left, List.append_nil]
  · -- a later json marker cuts the piece at dD.length + j-prime
    have hsome : firstOcc fenceMarkerJson (dD ++ (fenceMarker ++ post2)) =
        some (j' + dD.length) := by
      rw [hmapB, hoccB]
      rfl
    rw [splitList_of_firstOcc (by decide) hsome]
    have htk : (dD ++ (fenceMarker ++ post2)).take (j' + dD.length) =
        dD ++ (fenceMarker ++ post2).take j' := by
      rw [Nat.add_comm, take_app]
    rw [htk]
    rw [show (pyIndexList (pre2 :: (dD ++ (fenceMarker ++ post2).take j') ::
        splitList fenceMarkerJson
          ((dD ++ (fenceMarker ++ post2)).drop
            (j' + dD.length + fenceMarkerJson.length))) 1 :
        Except PyErr (List Char)) = .ok (dD ++ (fenceMarker ++ post2).take j')
      from rfl, except_bind_ok]
    by_cases hj3 : 3 ≤ j'
    · -- the cut keeps the whole closing fence
      have h3 : fenceMarker.length + (j' - 3) = j' := by
        simp only [fenceMarker, List.length_cons, List.length_nil]
        omega
      have htk2 : (fenceMarker ++ post2).take j' =
          fenceMarker ++ post2.take (j' - 3) := by
        rw [← h3, take_app]
        congr 2
        simp only [fenceMarker, List.length_cons, List.length_nil]
        omega
      rw [htk2]
      have hfo3 : firstOcc fenceMarker (dD ++ (fenceMarker ++ post2.take (j' - 3))) =
          some dD.length := by
        rw [show fenceMarker = backtickChar ::
            ([backtickChar, backtickChar] : List Char) from rfl]
        rw [firstOcc_append_left dD _ hbt]
        rw [firstOcc_of_self _ (by simp)]
        simp
      rw [splitList_of_firstOcc (by decide) hfo3]
      refine ⟨[], ?_, by simp⟩
      simp [pyIndexList, List.take_left, List.append_nil]
    · -- the cut lands inside the closing fence: at most two backticks remain
      have htk2 : (fenceMarker ++ post2).take j' = fenceMarker.take j' := by
        rw [List.take_append_eq_append_take]
        rw [show j' - fenceMarker.length = 0 from by simp [fenceMarker]; omega]
        simp
      rw [htk2]
      have hshort : firstOcc fenceMarker (fenceMarker.take j') = none := by
        apply firstOcc_short
        simp [fenceMarker]
        omega
      have hnone3 : firstOcc fenceMarker (dD ++ fenceMarker.take j') = none := by
        rw [show fenceMarker = backtickChar ::
            ([backtickChar, backtickChar] : List Char) from rfl]
        rw [firstOcc_append_left dD _ hbt]
        rw [show firstOcc (backtickChar :: ([backtickChar, backtickChar] : List Char))
            ((backtickChar :: ([backtickChar, backtickChar] : List Char)).take j') =
            none from hshort]
        rfl
      rw [splitList_of_none hnone3]
      refine ⟨fenceMarker.take j', ?_, ?_⟩
      · simp [pyIndexList]
      · intro c hc
        have hmem := (List.take_sublist _ _).subset hc
        simp [fenceMarker] at hmem
        exact hmem

/-- Error propagation through Except bind, matching a raised exception
crossing the rest of a Python try block. -/
theorem except_bind_err {E A B : Type} (e : E) (f : A → Except E B) :
    (Except.error e >>= f : Except E B) = .error e := rfl

/-- The dispatch list of the tool-call loop never grows past the remaining
iteration budget: each iteration appends at most one call. -/
theorem toolLoopGo_length_le (replies : Nat → Reply) (isKnown : String → Bool) :
    ∀ (rem count : Nat) (disp : List ToolCall) (current : Reply),
      (toolLoopGo replies isKnown rem count disp current).2.1.length ≤
        disp.length + rem := by
  intro rem
  induction rem with
  | zero => intro count disp current; simp [toolLoopGo]
  | succ rem ih =>
      intro count disp current
      rcases hfc : current.functionCall with _ | fc
      · simp [toolLoopGo, hfc]
      · by_cases hk : isKnown fc.name = true
        · have h2 := ih (count + 1) (disp ++ [fc]) (replies (count + 1))
          simp only [toolLoopGo, hfc, hk, if_true]
          simp only [List.length_append, List.length_cons, List.length_nil] at h2
          omega
        · simp [toolLoopGo, hfc, hk]

/-- Advancing the tool-call loop through j replies that all request a known
tool: the loop takes j dispatching steps, incrementing the counter each
time. -/
theorem toolLoopGo_adv (replies : Nat → Reply) (isKnown : String → Bool) :
    ∀ (j rem count : Nat) (disp : List ToolCall), j ≤ rem →
      (∀ k, k < j → ∃ g, (replies (count + k)).functionCall = some g ∧
        isKnown g.name = true) →
      ∃ ds : List ToolCall, ds.length = j ∧
        toolLoopGo replies isKnown rem count disp (replies count) =
          toolLoopGo replies isKnown (rem - j) (count + j) (disp ++ ds)
            (replies (count + j)) := by
  intro j
  induction j with
  | zero => intro rem count disp _ _; exact ⟨[], rfl, by simp⟩
  | succ j ih =>
      intro rem count disp hle hkn
      obtain ⟨g, hg, hgk⟩ := hkn 0 (Nat.succ_pos j)
      have hg2 : (replies count).functionCall = some g := by
        rw [show count = count + 0 from (Nat.add_zero count).symm]
        exact hg
      rcases rem with _ | rem
      · omega
      · have hstep : toolLoopGo replies isKnown (rem + 1) count disp (replies count) =
            toolLoopGo replies isKnown rem (count + 1) (disp ++ [g])
              (replies (count + 1)) := by
          simp only [toolLoopGo]
          rw [hg2]
          simp [hgk]
        obtain ⟨ds, hlen, hrec⟩ := ih rem (count + 1) (disp ++ [g]) (by omega)
          (fun k hk => by
            have h3 := hkn (k + 1) (by omega)
            rwa [show count + (k + 1) = count + 1 + k from by omega] at h3)
        refine ⟨g :: ds, by simp [hlen], ?_⟩
        rw [hstep, hrec]
        rw [show rem + 1 - (j + 1) = rem - j from by omega]
        rw [show count + (j + 1) = count + 1 + j from by omega]
        rw [show disp ++ g :: ds = (disp ++ [g]) ++ ds from by simp]

/-- C1: with the call budget N, a model stub that embeds a tool-call request
for a registered tool in every reply drives the orchestrator loop of
plan_trip / adjust_for_weather through exactly N dispatches, never more; the
counter increments on every tool-call turn, the loop then stops issuing calls
and the route returns the last reply's text as best effort instead of
raising.  The first conjunct bounds the dispatches of an arbitrary stub by
N. -/
theorem C1_tool_loop_bounded (replies : Nat → Reply) (isKnown : String → Bool)
    (N : Nat) :
    (toolLoop replies isKnown N).2.1.length ≤ N ∧
    ((∀ k, ∃ g, (replies k).functionCall = some g ∧ isKnown g.name = true) →
      ∃ ds : List ToolCall, ds.length = N ∧
        toolLoop replies isKnown N = (N, ds, replies N) ∧
        orchestrateRawText replies isKnown N = (replies N).text) := by
  constructor
  · have h := toolLoopGo_length_le replies isKnown N 0 [] (replies 0)
    simpa [toolLoop] using h
  · intro hall
    obtain ⟨ds, hlen, hrun⟩ := toolLoopGo_adv replies isKnown N N 0 []
      (Nat.le_refl N) (fun k _ => by simpa using hall k)
    refine ⟨ds, hlen, ?_, ?_⟩
    · rw [toolLoop, hrun]
      simp [toolLoopGo]
    · rw [orchestrateRawText, toolLoop, hrun]
      simp [toolLoopGo]

/-- Closed instance of C1: a stub that always asks for get_todays_weather
drives the planning loop through exactly five dispatches and the route
returns the stub's text. -/
theorem C1_witness :
    (toolLoop (fun _ => ⟨some ⟨"get_todays_weather", "Paris"⟩, "draft"⟩)
        planKnownTool 5).2.1.length ≤ 5 ∧
    ∃ ds : List ToolCall, ds.length = 5 ∧
      toolLoop (fun _ => ⟨some ⟨"get_todays_weather", "Paris"⟩, "draft"⟩)
          planKnownTool 5 =
        (5, ds, ⟨some ⟨"get_todays_weather", "Paris"⟩, "draft"⟩) ∧
      orchestrateRawText (fun _ => ⟨some ⟨"get_todays_weather", "Paris"⟩, "draft"⟩)
          planKnownTool 5 = "draft" := by
  have h := C1_tool_loop_bounded
    (fun _ => ⟨some ⟨"get_todays_weather", "Paris"⟩, "draft"⟩) planKnownTool 5
  exact ⟨h.1, h.2 (fun _ => ⟨⟨"get_todays_weather", "Paris"⟩, rfl, by decide⟩)⟩

/-- C8: when the replies up to position K request registered tools and the
reply at position K requests a tool with no registered executor, the loop
counts the unknown call, terminates early without dispatching it (only the K
earlier calls were dispatched), keeps that reply in hand, and the route
returns its textual content rather than raising.  (The log line the source
also emits is outside the model.) -/
theorem C8_unknown_tool_early_exit (replies : Nat → Reply) (isKnown : String → Bool)
    (N K : Nat) (fc : ToolCall) (hK : K < N)
    (hknown : ∀ k, k < K → ∃ g, (replies k).functionCall = some g ∧
      isKnown g.name = true)
    (hfc : (replies K).functionCall = some fc) (hunk : isKnown fc.name = false) :
    (toolLoop replies isKnown N).1 = K + 1 ∧
    (toolLoop replies isKnown N).2.1.length = K ∧
    (toolLoop replies isKnown N).2.2 = replies K ∧
    orchestrateRawText replies isKnown N = (replies K).text := by
  obtain ⟨ds, hlen, hrun⟩ := toolLoopGo_adv replies isKnown K N 0 []
    (Nat.le_of_lt hK) (fun k hk => by simpa using hknown k hk)
  have hNK : N - K = (N - K - 1) + 1 := by omega
  have hstop : toolLoopGo replies isKnown (N - K) (0 + K) ([] ++ ds) (replies (0 + K)) =
      (K + 1, ds, replies K) := by
    rw [hNK]
    simp only [toolLoopGo, Nat.zero_add, List.nil_append]
    rw [hfc]
    simp [hunk]
  have hall : toolLoopGo replies isKnown N 0 [] (replies 0) = (K + 1, ds, replies K) := by
    rw [hrun, hstop]
  refine ⟨?_, ?_, ?_, ?_⟩ <;> simp [toolLoop, orchestrateRawText, hall, hlen]

/-- Closed instance of C8: the very first reply asks for an unregistered tool
named teleport; the planning loop stops at once with one counted but zero
dispatched calls and the route returns the reply's text. -/
theorem C8_witness :
    (toolLoop (fun _ => ⟨some ⟨"teleport", "Paris"⟩, "partial answer"⟩)
        planKnownTool 5).1 = 1 ∧
    (toolLoop (fun _ => ⟨some ⟨"teleport", "Paris"⟩, "partial answer"⟩)
        planKnownTool 5).2.1.length = 0 ∧
    (toolLoop (fun _ => ⟨some ⟨"teleport", "Paris"⟩, "partial answer"⟩)
        planKnownTool 5).2.2 = ⟨some ⟨"teleport", "Paris"⟩, "partial answer"⟩ ∧
    orchestrateRawText (fun _ => ⟨some ⟨"teleport", "Paris"⟩, "partial answer"⟩)
        planKnownTool 5 = "partial answer" :=
  C8_unknown_tool_early_exit
    (fun _ => ⟨some ⟨"teleport", "Paris"⟩, "partial answer"⟩) planKnownTool 5 0
    ⟨"teleport", "Paris"⟩ (by omega) (fun k hk => absurd hk (by omega)) rfl
    (by decide)

/-- A pricing-API behaviour exhibiting the C2 bug: the location lookup finds
a city with a usable dest_id, and the hotel search returns one hotel whose
grossPrice value is the string N/A, so float() on it (app.py 155) raises
ValueError outside the reach of the two RequestException handlers. -/
def malformedPriceEnv : PriceEnv :=
  ⟨true,
   .ok (.arr [.obj [("dest_type", .str "city"), ("dest_id", .str "20088325")]]),
   .ok (.obj [("results", .arr [.obj [("priceBreakdown",
     .obj [("grossPrice", .obj [("value", .str "N/A")])])]])])⟩

/-- C2, refuted as a bug of the code: a hotel entry whose price field holds a
non-numeric string makes get_average_hotel_price raise ValueError past its
boundary instead of returning the 3500.0 default, because the except clauses
at app.py 119 and 165 catch requests.exceptions.RequestException only and
float() raises ValueError. -/
theorem C2_malformed_price_escapes :
    get_average_hotel_price malformedPriceEnv = .error .valueError ∧
    ∀ q : ℚ, get_average_hotel_price malformedPriceEnv ≠ .ok q := by
  have h : get_average_hotel_price malformedPriceEnv = .error .valueError := rfl
  exact ⟨h, fun q hq => by rw [h] at hq; exact Except.noConfusion hq⟩

/-- C3: on every failure mode of the weather lookup — missing API key, an
error raised by the request (HTTP error included), or any exception while
parsing the decoded response — get_todays_weather returns a mapping carrying
an error key; being total into JVal, the model never raises to its caller. -/
theorem C3_weather_error_key (env : WeatherEnv) :
    (env.apiKeyPresent = false → (get_todays_weather env).hasKey "error" = true) ∧
    (∀ e, env.response = .error e → (get_todays_weather env).hasKey "error" = true) ∧
    (∀ dataJ e, env.response = .ok dataJ → parseWeather dataJ = .error e →
      (get_todays_weather env).hasKey "error" = true) := by
  refine ⟨?_, ?_, ?_⟩
  · intro h
    unfold get_todays_weather
    rw [h]
    rfl
  · intro e he
    unfold get_todays_weather
    rcases hapi : env.apiKeyPresent with _ | _
    · rfl
    · rw [he, except_bind_err]
      cases e <;> rfl
  · intro dataJ e hres hpw
    unfold get_todays_weather
    rcases hapi : env.apiKeyPresent with _ | _
    · rfl
    · rw [hres, except_bind_ok, hpw]
      cases e <;> rfl

/-- Closed instance of C3: with no API key configured the lookup reports the
unconfigured service under the error key. -/
theorem C3_witness :
    (get_todays_weather ⟨false, .ok JVal.null⟩).hasKey "error" = true :=
  (C3_weather_error_key ⟨false, .ok JVal.null⟩).1 rfl

/-- C6, amended: a non-rate-limit failure ends the plan_trip retry loop on
the first attempt, with no sleep and no retry, surfacing the message-derived
terminal error — but the adjust_for_weather loop behaves differently from
the claim: it retries generic failures too, sleeping 1 second between
attempts, and only surfaces the 500 error after the third failed attempt
(app.py 1121-1126). -/
theorem C6_non_rate_limit_terminal {α : Type} (f : Nat → Attempt α) (msg : String)
    (h0 : f 0 = .otherError msg) :
    planRetry f = (classifyPlanError msg, [], 1) ∧
    ((∀ k, f k = .otherError msg) →
      weatherRetry f = (.error500 msg, [1, 1], 3)) := by
  constructor
  · simp [planRetry, planRetryGo, h0]
  · intro hall
    simp [weatherRetry, weatherRetryGo, hall 0, hall 1, hall 2]

/-- Counterexample to C6 as stated: in the weather-adjustment flow a stub
that always raises a generic exception is retried — the loop sleeps twice
(1 second each) and makes three attempts before surfacing the 500 error, so
the flow does not terminate on the first attempt without sleeping. -/
theorem C6_counterexample :
    weatherRetry (fun _ => (Attempt.otherError "boom" : Attempt Nat)) =
      (.error500 "boom", [1, 1], 3) ∧ ([1, 1] : List Nat) ≠ [] := by
  exact ⟨rfl, by decide⟩

/-- Closed instance of the amended C6: a generic failure ends plan_trip at
once with no sleeps, while adjust_for_weather sleeps twice and attempts three
times. -/
theorem C6_witness :
    planRetry (fun _ => (Attempt.otherError "exploded" : Attempt Nat)) =
      (classifyPlanError "exploded", [], 1) ∧
    weatherRetry (fun _ => (Attempt.otherError "exploded" : Attempt Nat)) =
      (.error500 "exploded", [1, 1], 3) := by
  have h := C6_non_rate_limit_terminal
    (fun _ => (Attempt.otherError "exploded" : Attempt Nat)) "exploded" rfl
  exact ⟨h.1, h.2 (fun _ => rfl)⟩

/-- C7: plan_trip retries a rate-limited attempt after a flat 2-second sleep,
up to 3 total attempts; two rate limits followed by a success give the
success after exactly two 2-second sleeps and three attempts, and a third
rate limit instead surfaces the terminal service-busy message. -/
theorem C7_rate_limit_retry {α : Type} (f : Nat → Attempt α) (r : α)
    (h0 : f 0 = .rateLimited) (h1 : f 1 = .rateLimited) :
    (f 2 = .ok r → planRetry f = (.success r, [2, 2], 3)) ∧
    (f 2 = .rateLimited → planRetry f = (.busyError, [2, 2], 3)) := by
  constructor
  · intro h2
    simp [planRetry, planRetryGo, h0, h1, h2]
  · intro h2
    simp [planRetry, planRetryGo, h0, h1, h2]

/-- Closed instance of C7: rate limits on the first two attempts and a
success on the third succeed after two 2-second sleeps; rate limits on all
three surface the busy error. -/
theorem C7_witness :
    planRetry (fun k => if k < 2 then (Attempt.rateLimited : Attempt Nat)
        else .ok 9) = (.success 9, [2, 2], 3) ∧
    planRetry (fun _ => (Attempt.rateLimited : Attempt Nat)) =
      (.busyError, [2, 2], 3) :=
  ⟨(C7_rate_limit_retry (fun k => if k < 2 then (Attempt.rateLimited : Attempt Nat)
      else .ok 9) 9 rfl rfl).1 rfl,
   (C7_rate_limit_retry (fun _ => (Attempt.rateLimited : Attempt Nat)) 9
      rfl rfl).2 rfl⟩

/-- C4, amended: the extraction steps of plan_trip — strip, cut to the
content of the first json-marked fence pair, locate the first opening and
last closing brace, slice inclusively, parse — recover every well-formed
document D from json.dumps(D) wrapped in a json fence, PROVIDED the leading
prose mentions no backtick and the serialized document itself contains none;
with arbitrary prose the claim fails (see the counterexample), because the
split on the first fence marker then cuts inside the prose. -/
theorem C4_round_trip_fenced (fs : List (String × JVal)) (pre post : List Char)
    (hwf : wfJ (JVal.obj fs) = true) (hpre : backtickChar ∉ pre)
    (hbt : backtickChar ∉ dumpsJ (JVal.obj fs)) :
    extractJsonObject
        (pre ++ (fenceMarkerJson ++ (dumpsJ (JVal.obj fs) ++ (fenceMarker ++ post)))) =
      .ok (JVal.obj fs) := by
  obtain ⟨T, hcl, hT⟩ := objectCleaned_wrapped (dumpsJ (JVal.obj fs)) pre post hpre hbt
  unfold extractJsonObject
  rw [hcl, except_bind_ok]
  exact extract_brace_stage fs T hwf hT

/-- Closed instance of the amended C4: a fenced one-field document wrapped in
backtick-free prose round-trips. -/
theorem C4_witness :
    extractJsonObject ("Here is the itinerary: ".data ++ (fenceMarkerJson ++
        (dumpsJ (JVal.obj [("ok", JVal.bool true)]) ++
          (fenceMarker ++ " hope it helps".data)))) =
      .ok (JVal.obj [("ok", JVal.bool true)]) :=
  C4_round_trip_fenced [("ok", JVal.bool true)] ("Here is the itinerary: ".data)
    (" hope it helps".data) (by decide) (by decide) (by decide)

/-- The structured document of the C4 counterexample: the empty object. -/
def c4Doc : JVal := JVal.obj []

/-- Leading prose that itself mentions a json fence marker, as model
commentary may. -/
def c4Prose : List Char := "a ".data ++ fenceMarkerJson ++ " b ".data

/-- Counterexample to C4 as stated: with leading prose that mentions a json
fence marker, extracting json.dumps of the well-formed document c4Doc wrapped
in a fenced block fails with the MalformedOutputError-modelling ValueError
instead of recovering c4Doc — the split on the first marker lands inside the
prose, leaving text with no brace. -/
theorem C4_counterexample :
    wfJ c4Doc = true ∧
    extractJsonObject (c4Prose ++ (fenceMarkerJson ++ (dumpsJ c4Doc ++
        (fenceMarker ++ [])))) = .error .valueError ∧
    extractJsonObject (c4Prose ++ (fenceMarkerJson ++ (dumpsJ c4Doc ++
        (fenceMarker ++ [])))) ≠ .ok c4Doc := by
  have hc : containsSub (pyStrip (c4Prose ++ (fenceMarkerJson ++ (dumpsJ c4Doc ++
      (fenceMarker ++ []))))) fenceMarkerJson = true := by decide
  have ho1 : firstOcc fenceMarkerJson (pyStrip (c4Prose ++ (fenceMarkerJson ++
      (dumpsJ c4Doc ++ (fenceMarker ++ []))))) = some 2 := by decide
  have ho2 : firstOcc fenceMarkerJson ((pyStrip (c4Prose ++ (fenceMarkerJson ++
      (dumpsJ c4Doc ++ (fenceMarker ++ []))))).drop (2 + fenceMarkerJson.length)) =
      some 3 := by decide
  have htk : ((pyStrip (c4Prose ++ (fenceMarkerJson ++ (dumpsJ c4Doc ++
      (fenceMarker ++ []))))).drop (2 + fenceMarkerJson.length)).take 3 =
      " b ".data := by decide
  have ho3 : firstOcc fenceMarker (" b ".data) = none := by decide
  have hclean : objectCleaned (c4Prose ++ (fenceMarkerJson ++ (dumpsJ c4Doc ++
      (fenceMarker ++ [])))) = .ok (" b ".data) := by
    unfold objectCleaned
    rw [if_pos hc, splitList_of_firstOcc (by decide) ho1,
      splitList_of_firstOcc (by decide) ho2, htk]
    rw [show (pyIndexList ((pyStrip (c4Prose ++ (fenceMarkerJson ++ (dumpsJ c4Doc ++
        (fenceMarker ++ []))))).take 2 :: " b ".data ::
        splitList fenceMarkerJson (((pyStrip (c4Prose ++ (fenceMarkerJson ++
          (dumpsJ c4Doc ++ (fenceMarker ++ []))))).drop
            (2 + fenceMarkerJson.length)).drop (3 + fenceMarkerJson.length))) 1 :
        Except PyErr (List Char)) = .ok (" b ".data) from rfl, except_bind_ok]
    rw [splitList_of_none ho3]
    rfl
  have hfail : extractJsonObject (c4Prose ++ (fenceMarkerJson ++ (dumpsJ c4Doc ++
      (fenceMarker ++ [])))) = .error .valueError := by
    unfold extractJsonObject
    rw [hclean, except_bind_ok]
    rw [if_pos (Or.inl (show pyFind lbraceChar (" b ".data) = -1 from by decide))]
  exact ⟨by decide, hfail, fun hq => by rw [hfail] at hq; exact Except.noConfusion hq⟩

/-- C5: raw text lacking an opening or closing brace (object mode of
plan_trip) or an opening or closing bracket (array mode of
adjust_for_weather) makes the output extractor fail with the
MalformedOutputError-modelling ValueError rather than return a value. -/
theorem C5_extract_no_json_fails (raw : List Char) :
    ((lbraceChar ∉ raw ∨ rbraceChar ∉ raw) →
      extractJsonObject raw = .error .valueError) ∧
    ((lbrackChar ∉ raw ∨ rbrackChar ∉ raw) →
      extractJsonArray raw = .error .valueError) :=
  ⟨extractJsonObject_fails raw, extractJsonArray_fails raw⟩

/-- Closed instance of C5: extraction from "no json here" fails with the
error in both modes. -/
theorem C5_witness :
    extractJsonObject ("no json here".data) = .error .valueError ∧
    extractJsonArray ("no json here".data) = .error .valueError :=
  ⟨(C5_extract_no_json_fails ("no json here".data)).1 (Or.inl (by decide)),
   (C5_extract_no_json_fails ("no json here".data)).2 (Or.inl (by decide))⟩

/-- C9: when the pricing key is set, the location stage yields a usable
destination and the hotel search succeeds with a non-empty result set whose
first five entries yield the non-empty price list prices (entries missing a
level of the price structure are skipped by collectPrices),
get_average_hotel_price returns the arithmetic mean of prices — and any
other result set agreeing on its first five entries returns the same mean,
so hotels beyond the first five never influence the result. -/
theorem C9_average_first_five (lr : Except PyErr JVal) (hotels hotels2 : List JVal)
    (prices : List ℚ)
    (hloc : ∃ d, locStage ⟨true, lr, .ok JVal.null⟩ = .ok d ∧ d.truthy = true)
    (htk : hotels2.take 5 = hotels.take 5)
    (hne : hotels ≠ []) (hne2 : hotels2 ≠ [])
    (hcp : collectPrices (hotels.take 5) = .ok prices) (hpne : prices ≠ []) :
    get_average_hotel_price ⟨true, lr, .ok (.obj [("results", .arr hotels)])⟩ =
      .ok (prices.sum / (prices.length : ℚ)) ∧
    get_average_hotel_price ⟨true, lr, .ok (.obj [("results", .arr hotels2)])⟩ =
      .ok (prices.sum / (prices.length : ℚ)) := by
  obtain ⟨d, hd, hdt⟩ := hloc
  have main : ∀ hs : List JVal, hs ≠ [] → collectPrices (hs.take 5) = .ok prices →
      get_average_hotel_price ⟨true, lr, .ok (.obj [("results", .arr hs)])⟩ =
        .ok (prices.sum / (prices.length : ℚ)) := by
    intro hs hsne hscp
    have hd2 : locStage ⟨true, lr, .ok (.obj [("results", .arr hs)])⟩ = .ok d := hd
    have ht : JVal.truthy (.arr hs) = true := by
      cases hs with
      | nil => exact absurd rfl hsne
      | cons a l => rfl
    have hss : searchStage ⟨true, lr, .ok (.obj [("results", .arr hs)])⟩ =
        .ok (prices.sum / (prices.length : ℚ)) := by
      unfold searchStage
      rw [show ((⟨true, lr, .ok (.obj [("results", .arr hs)])⟩ :
          PriceEnv).searchResponse) =
        (.ok (.obj [("results", .arr hs)]) : Except PyErr JVal) from rfl]
      rw [except_bind_ok]
      rw [show (JVal.getD (.obj [("results", .arr hs)]) "results" (.arr [])) =
        (.ok (.arr hs) : Except PyErr JVal) from rfl]
      rw [except_bind_ok]
      rw [if_neg (show ¬ ((!JVal.truthy (.arr hs)) = true) from by
        rw [ht]; decide)]
      rw [show (pyTakeFiveIter (.arr hs)) =
        (.ok (hs.take 5) : Except PyErr (List JVal)) from rfl]
      rw [except_bind_ok, hscp, except_bind_ok]
      rw [if_neg hpne]
      rfl
    simp only [get_average_hotel_price, hd2, hss]
    rw [hdt]
    rfl
  exact ⟨main hotels hne hcp, main hotels2 hne2 (by rw [htk]; exact hcp)⟩

/-- A hotel entry whose nested price fields carry the given value. -/
def hotelWithPrice (v : JVal) : JVal :=
  .obj [("priceBreakdown", .obj [("grossPrice", .obj [("value", v)])])]

/-- Six hotels for the C9 witness: two usable prices among the first five
(the other three each lack a level of the price structure) and a sixth whose
price must not influence the average. -/
def c9Hotels : List JVal :=
  [hotelWithPrice (.num 100),
   .obj [("name", .str "no breakdown")],
   .obj [("priceBreakdown", .obj [("currency", .str "INR")])],
   hotelWithPrice JVal.null,
   hotelWithPrice (.num 200),
   hotelWithPrice (.num 999999)]

/-- The same first five hotels with a different sixth entry. -/
def c9Hotels2 : List JVal := c9Hotels.take 5 ++ [hotelWithPrice (.num 7)]

/-- The location response of the C9 witness: one city entry with a usable
destination id. -/
def c9Loc : Except PyErr JVal :=
  .ok (.arr [.obj [("dest_type", .str "city"), ("dest_id", .str "20088325")]])

/-- Closed instance of C9: the average over the six-strong result set
c9Hotels is the mean of the two usable prices among its first five hotels,
and swapping the sixth hotel leaves it unchanged. -/
theorem C9_witness :
    get_average_hotel_price ⟨true, c9Loc, .ok (.obj [("results", .arr c9Hotels)])⟩ =
      .ok (([(100 : ℚ), 200]).sum / ((([(100 : ℚ), 200]).length : Nat) : ℚ)) ∧
    get_average_hotel_price ⟨true, c9Loc, .ok (.obj [("results", .arr c9Hotels2)])⟩ =
      .ok (([(100 : ℚ), 200]).sum / ((([(100 : ℚ), 200]).length : Nat) : ℚ)) :=
  C9_average_first_five c9Loc c9Hotels c9Hotels2 [100, 200]
    ⟨.str "20088325", rfl, rfl⟩ rfl (by decide) (by decide) rfl (by decide)
